import Mathlib

/-!
Verification development for the BSON archive codec of
`include/cereal/archives/bson.hpp` (classes `BSONOutputArchive` and
`BSONInputArchive`).

The shallow embedding models the two archive state machines directly from
the source.  The external collaborators declared out of scope by the design
(the `bsoncxx` document builder, the document/array views, and the byte-level
wire framing) are modelled per their stated contracts: the builder is an
explicit stack of partially built documents/arrays, a document view is an
association list of key/value pairs, an array view is a list of values, and
the byte stream between the two archives is the ordered list of complete
documents flushed by the encoder (the 4-byte length-prefix framing is the
identity on that list).  Scalar payloads (doubles, date millisecond counts,
32/64-bit integer payloads) are carried opaquely, exactly as the codec does:
it never inspects them, it only routes them between the traversal protocol
and the builder/view.
-/

namespace CerealBson

/-- The scalar kinds the codec routes: double, UTF-8 string, boolean,
date-time, 32-bit integer, 64-bit integer.  Payloads are opaque to the
codec (the binary encoding of each payload is the out-of-scope collaborator),
so doubles are carried as their 64-bit pattern and dates as their
millisecond count. -/
inductive BsonScalar where
  | bDouble (bits : Nat)
  | bUtf8 (s : String)
  | bBool (b : Bool)
  | bDate (millis : Int)
  | bInt32 (i : Int)
  | bInt64 (i : Int)
deriving DecidableEq

/-- Scalar kind tags, used by the typed traversal on the load side:
each `loadValue` overload extracts one fixed kind. -/
inductive ScalarKind where
  | double | utf8 | boolean | date | int32 | int64
deriving DecidableEq

/-- The stored kind of a scalar element, as reported by the view's type tag. -/
def kindOf : BsonScalar → ScalarKind
  | .bDouble _ => .double
  | .bUtf8 _ => .utf8
  | .bBool _ => .boolean
  | .bDate _ => .date
  | .bInt32 _ => .int32
  | .bInt64 _ => .int64

mutual
/-- A BSON value: a scalar, an embedded document (keyed fields, in order),
or an embedded array (ordered values).  This is both the in-memory tree
the traversal protocol walks and the content of a built document. -/
inductive BVal where
  | scalar (sc : BsonScalar)
  | doc (fields : BFields)
  | arr (elems : BElems)

/-- The ordered keyed elements of a document view. -/
inductive BFields where
  | nil
  | cons (key : String) (v : BVal) (rest : BFields)

/-- The ordered elements of an array view. -/
inductive BElems where
  | nil
  | cons (v : BVal) (rest : BElems)
end

/-- Concatenation of document field lists. -/
def BFields.append : BFields → BFields → BFields
  | .nil, gs => gs
  | .cons k v fs, gs => .cons k v (fs.append gs)

/-- Concatenation of array element lists. -/
def BElems.append : BElems → BElems → BElems
  | .nil, gs => gs
  | .cons v fs, gs => .cons v (fs.append gs)

/-- The keys of a document view, in order. -/
def BFields.keys : BFields → List String
  | .nil => []
  | .cons k _ fs => k :: fs.keys

/-- Key lookup on a document view: the first element whose key matches,
mirroring the view's bracket operator (which yields the first match, or an
invalid element when the key is absent). -/
def BFields.lookup : BFields → String → Option BVal
  | .nil, _ => none
  | .cons k v fs, nm => if k = nm then some v else fs.lookup nm

/-- Number of elements of an array view, as `std::distance(begin, end)`. -/
def BElems.length : BElems → Nat
  | .nil => 0
  | .cons _ fs => fs.length + 1

/-- Element of an array view at a forward-iterator position; `none` models
the invalid element a past-the-end dereference yields. -/
def BElems.get? : BElems → Nat → Option BVal
  | .nil, _ => none
  | .cons v _, 0 => some v
  | .cons _ fs, n + 1 => fs.get? n

/-- Remaining elements of an array view from an iterator position. -/
def BElems.drop : BElems → Nat → BElems
  | fs, 0 => fs
  | .nil, _ + 1 => .nil
  | .cons _ fs, n + 1 => fs.drop n

/-! ## The builder collaborator

`bsoncxx::builder::core` as used by the encoder: a stack of partially built
documents/arrays.  A key set with `key_owned` is pending on the innermost
document frame (setting it again overwrites it); an append consumes it;
opening a sub-document or sub-array consumes it as the key under which the
completed child will be appended to its parent when closed. -/

/-- One builder frame: a document being built (the key under which it will
land in its parent, its elements so far, and its pending key) or an array
being built (its parent key and elements so far). -/
inductive BFrame where
  | doc (parentKey : Option String) (elems : BFields) (pendingKey : Option String)
  | arr (parentKey : Option String) (elems : BElems)

/-- The builder: innermost frame first; the bottom frame is the root
document (`core{false}`). -/
structure Builder where
  frames : List BFrame

/-- A fresh builder (also the result of `clear()`). -/
def Builder.init : Builder := ⟨[.doc none .nil none]⟩

/-- The builder calls the encoder issues. -/
inductive BuilderOp where
  | openDoc
  | closeDoc
  | openArr
  | closeArr
  | keyOwned (k : String)
  | append (sc : BsonScalar)
deriving DecidableEq

/-- Append a completed child value into a parent frame under the child's
recorded key (positionally for an array parent). -/
def BFrame.put : BFrame → Option String → BVal → BFrame
  | .doc pk d pend, k, v => .doc pk (d.append (.cons (k.getD ("")) v .nil)) pend
  | .arr ak es, _, v => .arr ak (es.append (.cons v .nil))

/-- Apply one builder call. -/
def Builder.applyOp (b : Builder) : BuilderOp → Builder
  | .keyOwned k =>
    match b.frames with
    | .doc pk d _ :: fs => ⟨.doc pk d (some k) :: fs⟩
    | fs => ⟨fs⟩
  | .append sc =>
    match b.frames with
    | .doc pk d (some k) :: fs =>
      ⟨.doc pk (d.append (.cons k (.scalar sc) .nil)) none :: fs⟩
    | .arr ak es :: fs => ⟨.arr ak (es.append (.cons (.scalar sc) .nil)) :: fs⟩
    | fs => ⟨fs⟩
  | .openDoc =>
    match b.frames with
    | .doc pk d k :: fs => ⟨.doc k .nil none :: .doc pk d none :: fs⟩
    | .arr ak es :: fs => ⟨.doc none .nil none :: .arr ak es :: fs⟩
    | [] => b
  | .openArr =>
    match b.frames with
    | .doc pk d k :: fs => ⟨.arr k .nil :: .doc pk d none :: fs⟩
    | .arr ak es :: fs => ⟨.arr none .nil :: .arr ak es :: fs⟩
    | [] => b
  | .closeDoc =>
    match b.frames with
    | .doc k d _ :: parent :: fs => ⟨parent.put k (.doc d) :: fs⟩
    | fs => ⟨fs⟩
  | .closeArr =>
    match b.frames with
    | .arr k es :: parent :: fs => ⟨parent.put k (.arr es) :: fs⟩
    | fs => ⟨fs⟩

/-- Apply a sequence of builder calls in order. -/
def Builder.applyOps (b : Builder) : List BuilderOp → Builder
  | [] => b
  | op :: ops => (b.applyOp op).applyOps ops

/-- The finished root document (`view_document()`), read at flush time when
only the root frame remains open. -/
def Builder.viewDoc (b : Builder) : BFields :=
  match b.frames.getLast? with
  | some (.doc _ d _) => d
  | _ => .nil

/-! ## BSONOutputArchive -/

/-- Encoder node states (`BSONOutputArchive::NodeType`). -/
inductive NodeType where
  | StartObject | InObject | StartArray | InArray | Root
deriving DecidableEq

/-- The encoder, `BSONOutputArchive`.  `itsWriteStream` holds the complete
documents flushed so far, in order (the byte sink).  The stacks are lists
with the top at the head. -/
structure BSONOutputArchive where
  itsBuilder : Builder
  itsWriteStream : List BFields
  itsNextName : Option String
  itsNameCounter : List Nat
  itsNodeStack : List NodeType

namespace BSONOutputArchive

/-- A fresh archive bound to an empty sink: the constructor pushes the root
counter and the `Root` node sentinel. -/
def start : BSONOutputArchive :=
  ⟨Builder.init, [], none, [0], [.Root]⟩

/-- Records the name for the next node (`setNextName`). -/
def setNextName (ar : BSONOutputArchive) (name : String) : BSONOutputArchive :=
  { ar with itsNextName := some name }

/-- The control-state effect and the builder calls of `writeName`, translated
arm for arm: a `StartArray` top opens the array and flips to `InArray`; a
`StartObject` top flips to `InObject` and opens a document when the stack has
more than two entries; an (original or just-flipped) `InArray` top returns
before emitting any key; otherwise the pending name is consumed, or a
positional key is synthesized from the post-incremented top counter. -/
def writeNameStep (ar : BSONOutputArchive) :
    (Option String × List Nat × List NodeType) × List BuilderOp :=
  match ar.itsNodeStack with
  | [] => ((ar.itsNextName, ar.itsNameCounter, []), [])
  | top₀ :: rest =>
    let flip : NodeType × List BuilderOp :=
      match top₀ with
      | .StartArray => (.InArray, [.openArr])
      | .StartObject =>
        (.InObject, match rest with
          | _ :: _ :: _ => [.openDoc]
          | _ => [])
      | t => (t, [])
    match flip with
    | (.InArray, ops) => ((ar.itsNextName, ar.itsNameCounter, .InArray :: rest), ops)
    | (topN, ops) =>
      match ar.itsNextName with
      | none =>
        let n := ar.itsNameCounter.headD 0
        ((none, (n + 1) :: ar.itsNameCounter.tail, topN :: rest),
         ops ++ [.keyOwned (String.append ("value") (Nat.repr n))])
      | some nm =>
        ((none, ar.itsNameCounter, topN :: rest), ops ++ [.keyOwned nm])

/-- `writeName`: apply the control effect and run the builder calls. -/
def writeName (ar : BSONOutputArchive) : BSONOutputArchive :=
  match writeNameStep ar with
  | ((nm, cnt, ns), ops) =>
    { itsBuilder := ar.itsBuilder.applyOps ops
      itsWriteStream := ar.itsWriteStream
      itsNextName := nm
      itsNameCounter := cnt
      itsNodeStack := ns }

/-- `startNode`: a `writeName`, then push `StartObject` and a fresh counter. -/
def startNode (ar : BSONOutputArchive) : BSONOutputArchive :=
  let a := ar.writeName
  { a with itsNodeStack := .StartObject :: a.itsNodeStack
           itsNameCounter := 0 :: a.itsNameCounter }

/-- `makeArray`: reclassify the current node as `StartArray`. -/
def makeArray (ar : BSONOutputArchive) : BSONOutputArchive :=
  match ar.itsNodeStack with
  | [] => ar
  | _ :: rest => { ar with itsNodeStack := .StartArray :: rest }

/-- The builder calls and the `closedObj` flag of `finishNode`, translated
from the `switch` with its fall-throughs: `StartArray` opens then closes an
empty array; `InArray` closes the array; `StartObject` opens then closes an
empty document when the stack has more than two entries (and `closedObj` is
set); `InObject` closes the document under the same depth condition;
`Root` does nothing. -/
def finishNodeOps (ar : BSONOutputArchive) : List BuilderOp × Bool :=
  match ar.itsNodeStack with
  | [] => ([], false)
  | top₀ :: rest =>
    match top₀ with
    | .StartArray => ([.openArr, .closeArr], false)
    | .InArray => ([.closeArr], false)
    | .StartObject =>
      (match rest with
        | _ :: _ :: _ => [.openDoc, .closeDoc]
        | _ => [], true)
    | .InObject =>
      (match rest with
        | _ :: _ :: _ => [.closeDoc]
        | _ => [], true)
    | .Root => ([], false)

/-- `finishNode`: run the close calls, pop both stacks, and, when an object
was closed and the stack has returned to `Root`, write the finished document
to the sink and clear the builder. -/
def finishNode (ar : BSONOutputArchive) : BSONOutputArchive :=
  match finishNodeOps ar with
  | (ops, closedObj) =>
    let b := ar.itsBuilder.applyOps ops
    let rest := ar.itsNodeStack.tail
    let cnt := ar.itsNameCounter.tail
    if closedObj ∧ rest.headD .Root = .Root then
      { itsBuilder := Builder.init
        itsWriteStream := ar.itsWriteStream ++ [b.viewDoc]
        itsNextName := ar.itsNextName
        itsNameCounter := cnt
        itsNodeStack := rest }
    else
      { itsBuilder := b
        itsWriteStream := ar.itsWriteStream
        itsNextName := ar.itsNextName
        itsNameCounter := cnt
        itsNodeStack := rest }

/-- `saveValue`: append the scalar to the builder. -/
def saveValue (ar : BSONOutputArchive) (sc : BsonScalar) : BSONOutputArchive :=
  { ar with itsBuilder := ar.itsBuilder.applyOps [.append sc] }

end BSONOutputArchive

/-! ## The save-side traversal protocol

The generic cereal tree-walker drives the encoder through the prologue and
epilogue overloads of this file: a scalar value gets `writeName` (prologue)
then `saveValue`; an object gets `startNode`, its fields each as an NVP
(`setNextName` then the value), then `finishNode`; a sequence gets
`startNode`, its `SizeTag` prologue (`makeArray`), then its elements with
no names, then `finishNode`. -/

mutual
/-- Drive the encoder over one value of the tree. -/
def saveTree (ar : BSONOutputArchive) : BVal → BSONOutputArchive
  | .scalar sc => (ar.writeName).saveValue sc
  | .doc fl => (saveFields ar.startNode fl).finishNode
  | .arr el => (saveElems (ar.startNode.makeArray) el).finishNode

/-- Drive the encoder over named object fields, each as an NVP. -/
def saveFields (ar : BSONOutputArchive) : BFields → BSONOutputArchive
  | .nil => ar
  | .cons nm t fl => saveFields (saveTree (ar.setNextName nm) t) fl

/-- Drive the encoder over unnamed array elements. -/
def saveElems (ar : BSONOutputArchive) : BElems → BSONOutputArchive
  | .nil => ar
  | .cons t el => saveElems (saveTree ar t) el
end

/-- Drive the encoder over a list of independent root-level values. -/
def saveMany (ar : BSONOutputArchive) : List BVal → BSONOutputArchive
  | [] => ar
  | t :: ts => saveMany (saveTree ar t) ts

/-- Serialize a list of root-level values on a fresh archive and return the
documents written to the sink. -/
def encodeMany (ts : List BVal) : List BFields :=
  (saveMany BSONOutputArchive.start ts).itsWriteStream

/-! ## BSONInputArchive -/

/-- Decoder node states (`BSONInputArchive::NodeState`). -/
inductive NodeState where
  | Root | InObject | InEmbeddedObject | InEmbeddedArray
deriving DecidableEq

/-- The fatal errors of the load path: a named field absent from the current
scope, an array iterator past its end, a container entry that is neither
document nor array, a size query outside an array, a typed extraction from
an element of a different stored type, and an operation on the invalid
sentinel element. -/
inductive DecodeErr where
  | lookupErr (key : String)
  | boundsErr
  | structuralErr
  | sizeTagErr
  | typeErr
  | invalidElem
deriving DecidableEq

/-- Dereference the root-view cursor: the document view at the cursor
position (`*curBsonView`). -/
def viewAt : List BFields → Nat → BFields
  | [], _ => .nil
  | d :: _, 0 => d
  | _ :: l, n + 1 => viewAt l n

/-- The decoder, `BSONInputArchive`.  `bsonViews` holds the top-level
document views parsed at construction, `curBsonView` is the cursor over
them; the embedded stacks are lists with the top at the head, and an array
iterator is its index into the matching array view. -/
structure BSONInputArchive where
  itsNextName : Option String
  bsonViews : List BFields
  curBsonView : Nat
  embeddedBsonDocStack : List BFields
  embeddedBsonArrayStack : List BElems
  embeddedBsonArrayIteratorStack : List Nat
  itsNodeStack : List NodeState

namespace BSONInputArchive

/-- A fresh archive over a byte source framing the given documents; the
constructor parses them all eagerly and pushes the `Root` node state. -/
def start (docs : List BFields) : BSONInputArchive :=
  ⟨none, docs, 0, [], [], [], [.Root]⟩

/-- Records the name for the next load (`setNextName`). -/
def setNextName (ar : BSONInputArchive) (name : String) : BSONInputArchive :=
  { ar with itsNextName := some name }

/-- `search`: resolve the next element to read.  With a pending name and an
`InObject` state it looks the key up in the current root view; with a
pending name and `InEmbeddedObject` it looks it up in the top embedded
document; a missing key is a fatal lookup error thrown before any state
changes.  With no pending name and `InEmbeddedArray` it dereferences the
top array iterator and advances it, a falsy (past-the-end) element being a
fatal bounds error.  Any other combination returns the invalid sentinel
element (`none`).  The result pairs the outcome with the archive as left at
return or throw time. -/
def search (ar : BSONInputArchive) :
    Except DecodeErr (Option BVal) × BSONInputArchive :=
  match ar.itsNextName with
  | some nm =>
    match ar.itsNodeStack.headD .Root with
    | .InObject =>
      match (viewAt ar.bsonViews ar.curBsonView).lookup nm with
      | none => (.error (.lookupErr nm), ar)
      | some v => (.ok (some v), { ar with itsNextName := none })
    | .InEmbeddedObject =>
      match (ar.embeddedBsonDocStack.headD .nil).lookup nm with
      | none => (.error (.lookupErr nm), ar)
      | some v => (.ok (some v), { ar with itsNextName := none })
    | _ => (.ok none, ar)
  | none =>
    match ar.itsNodeStack.headD .Root with
    | .InEmbeddedArray =>
      let i := ar.embeddedBsonArrayIteratorStack.headD 0
      let a₁ := { ar with
        embeddedBsonArrayIteratorStack :=
          (i + 1) :: ar.embeddedBsonArrayIteratorStack.tail }
      match (ar.embeddedBsonArrayStack.headD .nil).get? i with
      | none => (.error .boundsErr, a₁)
      | some v => (.ok (some v), a₁)
    | _ => (.ok none, ar)

/-- `startNode`: inside an object, embedded object or embedded array, the
next element is resolved via `search`; a document pushes an embedded
document frame and `InEmbeddedObject`, an array pushes embedded array and
iterator frames and `InEmbeddedArray`, anything else is fatal (a scalar
fails the type dispatch; the invalid sentinel already fails its type
query).  At `Root` it just pushes `InObject`. -/
def startNode (ar : BSONInputArchive) : Except DecodeErr BSONInputArchive :=
  match ar.itsNodeStack.headD .Root with
  | .InObject | .InEmbeddedObject | .InEmbeddedArray =>
    match ar.search with
    | (.error e, _) => .error e
    | (.ok elem, a₁) =>
      match elem with
      | some (.doc df) =>
        .ok { a₁ with
          embeddedBsonDocStack := df :: a₁.embeddedBsonDocStack
          itsNodeStack := .InEmbeddedObject :: a₁.itsNodeStack }
      | some (.arr el) =>
        .ok { a₁ with
          embeddedBsonArrayStack := el :: a₁.embeddedBsonArrayStack
          embeddedBsonArrayIteratorStack := 0 :: a₁.embeddedBsonArrayIteratorStack
          itsNodeStack := .InEmbeddedArray :: a₁.itsNodeStack }
      | some (.scalar _) => .error .structuralErr
      | none => .error .invalidElem
  | .Root => .ok { ar with itsNodeStack := .InObject :: ar.itsNodeStack }

/-- `finishNode`: pop the embedded frame matching the current state, pop the
node state, and, if the new top is `Root`, advance the root-view cursor. -/
def finishNode (ar : BSONInputArchive) : BSONInputArchive :=
  let a₁ :=
    match ar.itsNodeStack.headD .Root with
    | .InEmbeddedObject =>
      { ar with embeddedBsonDocStack := ar.embeddedBsonDocStack.tail }
    | .InEmbeddedArray =>
      { ar with
        embeddedBsonArrayStack := ar.embeddedBsonArrayStack.tail
        embeddedBsonArrayIteratorStack := ar.embeddedBsonArrayIteratorStack.tail }
    | _ => ar
  let a₂ := { a₁ with itsNodeStack := a₁.itsNodeStack.tail }
  match a₂.itsNodeStack.headD .Root with
  | .Root => { a₂ with curBsonView := a₂.curBsonView + 1 }
  | _ => a₂

/-- `loadValue` for a scalar kind: resolve via `search` and extract the
typed payload; an element whose stored type differs is a fatal type error,
and extraction from the invalid sentinel is fatal. -/
def loadValue (ar : BSONInputArchive) (k : ScalarKind) :
    Except DecodeErr (BsonScalar × BSONInputArchive) :=
  match ar.search with
  | (.error e, _) => .error e
  | (.ok none, _) => .error .invalidElem
  | (.ok (some (.scalar sc)), a₁) =>
    if kindOf sc = k then .ok (sc, a₁) else .error .typeErr
  | (.ok (some _), _) => .error .typeErr

/-- `loadSize`: valid only inside an embedded array; returns the element
count of the array at the top of the embedded-array stack. -/
def loadSize (ar : BSONInputArchive) : Except DecodeErr (Nat × BSONInputArchive) :=
  match ar.itsNodeStack.headD .Root with
  | .InEmbeddedArray => .ok ((ar.embeddedBsonArrayStack.headD .nil).length, ar)
  | _ => .error .sizeTagErr

end BSONInputArchive

/-! ## The load-side traversal protocol

On load the walker is driven by the static type structure being filled in:
an object type contributes its field names (NVPs) in declaration order, a
sequence asks `loadSize` and then loads that many elements of its element
type, a scalar slot calls the matching `loadValue` overload.  A `Shape`
is that static structure. -/

mutual
/-- The static type structure driving a load. -/
inductive Shape where
  | scalar (k : ScalarKind)
  | obj (fields : ShapeFields)
  | arr (elem : Shape)

/-- Field names and shapes of an object type, in declaration order. -/
inductive ShapeFields where
  | nil
  | cons (key : String) (s : Shape) (rest : ShapeFields)
end

mutual
/-- Does a tree match a shape (same scalar kinds, same field names in the
same order, homogeneous arrays of the element shape)? -/
def hasShape : BVal → Shape → Bool
  | .scalar sc, .scalar k => decide (kindOf sc = k)
  | .doc fl, .obj sf => fieldsShape fl sf
  | .arr el, .arr s => elemsShape el s
  | _, _ => false

/-- Do object fields match shape fields pointwise? -/
def fieldsShape : BFields → ShapeFields → Bool
  | .nil, .nil => true
  | .cons nm v fl, .cons nm₁ s sf =>
    decide (nm = nm₁) && hasShape v s && fieldsShape fl sf
  | _, _ => false

/-- Do all array elements match one element shape? -/
def elemsShape : BElems → Shape → Bool
  | .nil, _ => true
  | .cons v el, s => hasShape v s && elemsShape el s
end

/-- Are these keys pairwise distinct? -/
def distinctKeys : List String → Bool
  | [] => true
  | k :: ks => !(decide (k ∈ ks)) && distinctKeys ks

mutual
/-- Does every document in the tree have pairwise distinct keys?  (Required
for name-addressed loading: the view lookup returns the first match.) -/
def goodKeys : BVal → Bool
  | .scalar _ => true
  | .doc fl => distinctKeys fl.keys && goodKeysF fl
  | .arr el => goodKeysE el

/-- `goodKeys` over all field values. -/
def goodKeysF : BFields → Bool
  | .nil => true
  | .cons _ v fl => goodKeys v && goodKeysF fl

/-- `goodKeys` over all array elements. -/
def goodKeysE : BElems → Bool
  | .nil => true
  | .cons v el => goodKeys v && goodKeysE el
end

/-- Drive the decoder over `n` unnamed sequence elements, each read by the
element loader `load1`. -/
def loadElemsAux
    (load1 : BSONInputArchive → Except DecodeErr (BVal × BSONInputArchive)) :
    BSONInputArchive → Nat → Except DecodeErr (BElems × BSONInputArchive)
  | ar, 0 => .ok (.nil, ar)
  | ar, n + 1 =>
    match load1 ar with
    | .error e => .error e
    | .ok (v, a₁) =>
      match loadElemsAux load1 a₁ n with
      | .error e => .error e
      | .ok (el, a₂) => .ok (.cons v el, a₂)

mutual
/-- Drive the decoder over one value of shape `sh`. -/
def loadTree (ar : BSONInputArchive) : Shape →
    Except DecodeErr (BVal × BSONInputArchive)
  | .scalar k =>
    match ar.loadValue k with
    | .error e => .error e
    | .ok (sc, a₁) => .ok (.scalar sc, a₁)
  | .obj sf =>
    match ar.startNode with
    | .error e => .error e
    | .ok a₁ =>
      match loadFields a₁ sf with
      | .error e => .error e
      | .ok (fl, a₂) => .ok (.doc fl, a₂.finishNode)
  | .arr s =>
    match ar.startNode with
    | .error e => .error e
    | .ok a₁ =>
      match a₁.loadSize with
      | .error e => .error e
      | .ok (n, a₂) =>
        match loadElemsAux (fun a => loadTree a s) a₂ n with
        | .error e => .error e
        | .ok (el, a₃) => .ok (.arr el, a₃.finishNode)

/-- Drive the decoder over the named fields of an object type. -/
def loadFields (ar : BSONInputArchive) : ShapeFields →
    Except DecodeErr (BFields × BSONInputArchive)
  | .nil => .ok (.nil, ar)
  | .cons nm s sf₁ =>
    match loadTree (ar.setNextName nm) s with
    | .error e => .error e
    | .ok (v, a₁) =>
      match loadFields a₁ sf₁ with
      | .error e => .error e
      | .ok (fl, a₂) => .ok (.cons nm v fl, a₂)
end

/-- Drive the decoder over a list of independent root-level shapes. -/
def loadMany (ar : BSONInputArchive) (shapes : List Shape) :
    Except DecodeErr (List BVal × BSONInputArchive) :=
  match shapes with
  | [] => .ok ([], ar)
  | s :: ss =>
    match loadTree ar s with
    | .error e => .error e
    | .ok (v, a₁) =>
      match loadMany a₁ ss with
      | .error e => .error e
      | .ok (vs, a₂) => .ok (v :: vs, a₂)

/-! ## Encoder operation sequences

For the stack invariants the encoder is also viewed as a transition system
over its public operations. -/

/-- One public encoder operation. -/
inductive EncOp where
  | startNode
  | finishNode
  | makeArray
  | writeName
  | setNextName (nm : String)
  | saveValue (sc : BsonScalar)

/-- Apply one public operation to the encoder. -/
def BSONOutputArchive.step (ar : BSONOutputArchive) : EncOp → BSONOutputArchive
  | .startNode => ar.startNode
  | .finishNode => ar.finishNode
  | .makeArray => ar.makeArray
  | .writeName => ar.writeName
  | .setNextName nm => ar.setNextName nm
  | .saveValue sc => ar.saveValue sc

/-- Apply a sequence of public operations in order. -/
def BSONOutputArchive.run (ar : BSONOutputArchive) : List EncOp → BSONOutputArchive
  | [] => ar
  | op :: ops => (ar.step op).run ops

/-- Is an operation sequence balanced when `d` containers are currently
open: every `finishNode` matches a container previously opened by a
`startNode` (or one of the `d` already open). -/
def balancedFrom (d : Nat) : List EncOp → Bool
  | [] => true
  | .startNode :: ops => balancedFrom (d + 1) ops
  | .finishNode :: ops =>
    match d with
    | 0 => false
    | e + 1 => balancedFrom e ops
  | .makeArray :: ops => balancedFrom d ops
  | .writeName :: ops => balancedFrom d ops
  | .setNextName _ :: ops => balancedFrom d ops
  | .saveValue _ :: ops => balancedFrom d ops

/-! ## Lookup predicates for the round trip -/

/-- Every field of `fl` is what key lookup in the scope `df` yields: the
condition under which name-addressed loading reads back exactly the fields
that were written. -/
def LookupAll (df : BFields) : BFields → Prop
  | .nil => True
  | .cons nm v fl => df.lookup nm = some v ∧ LookupAll df fl

/-- Pointwise conditions on a list of root documents and the shapes used to
load them back: each document matches its (object) shape, and every
document in each tree has pairwise distinct keys. -/
def RootsOK : List BFields → List Shape → Prop
  | [], [] => True
  | df :: fls, .obj sf :: ss =>
    (fieldsShape df sf = true ∧ distinctKeys df.keys = true ∧
      goodKeysF df = true) ∧ RootsOK fls ss
  | _, _ => False

/-! ## Concrete inputs for witnesses and counterexamples -/

/-- A two-element root-level array, as produced by serializing a top-level
sequence: its `SizeTag` prologue reclassifies the started node as an array. -/
def rootArrTree : BVal :=
  .arr (.cons (.scalar (.bInt32 1)) (.cons (.scalar (.bInt32 2)) .nil))

/-- A small root object exercising every container construct: a scalar
field, a two-element array, a nested object, an empty object and an empty
array. -/
def sampleTree : BFields :=
  .cons ("a") (.scalar (.bInt32 1))
    (.cons ("b") (.arr (.cons (.scalar (.bInt64 7)) (.cons (.scalar (.bInt64 8)) .nil)))
      (.cons ("c") (.doc (.cons ("x") (.scalar (.bUtf8 ("hi"))) .nil))
        (.cons ("d") (.doc .nil)
          (.cons ("e") (.arr .nil) .nil))))

/-- A one-field root document whose field holds an embedded document. -/
def docFieldDoc : BFields :=
  .cons ("a") (.doc (.cons ("x") (.scalar (.bInt32 5)) .nil)) .nil

/-- A one-field root document whose field holds a scalar. -/
def scalarFieldDoc : BFields :=
  .cons ("a") (.scalar (.bInt32 5)) .nil

/-- A two-element boolean array view. -/
def twoBools : BElems :=
  .cons (.scalar (.bBool true)) (.cons (.scalar (.bBool false)) .nil)

/-- A decoder state inside the embedded array `twoBools` with the iterator
at position `i`. -/
def arrArchive (i : Nat) : BSONInputArchive :=
  ⟨none, [], 0, [], [twoBools], [i], [.InEmbeddedArray, .InObject, .Root]⟩

/-- A top-level document with a duplicated key: two fields both named
`a`, holding 1 and 2. -/
def dupKeyDoc : BFields :=
  .cons ("a") (.scalar (.bInt32 1)) (.cons ("a") (.scalar (.bInt32 2)) .nil)

/-- What decoding `dupKeyDoc` by name actually yields: the first-match key
lookup resolves both fields named `a` to the first one, so the second field
comes back as 1 instead of 2. -/
def dupKeyDecoded : BFields :=
  .cons ("a") (.scalar (.bInt32 1)) (.cons ("a") (.scalar (.bInt32 1)) .nil)

/-- The static shape of `dupKeyDoc`. -/
def dupKeyShape : Shape :=
  .obj (.cons ("a") (.scalar .int32) (.cons ("a") (.scalar .int32) .nil))

/-- The static shape of `sampleTree`. -/
def sampleShape : ShapeFields :=
  .cons ("a") (.scalar .int32)
    (.cons ("b") (.arr (.scalar .int64))
      (.cons ("c") (.obj (.cons ("x") (.scalar .utf8) .nil))
        (.cons ("d") (.obj .nil)
          (.cons ("e") (.arr (.scalar .boolean)) .nil))))

/-! ## Basic lemmas on the view and field-list operations -/

theorem fields_append_assoc (a b c : BFields) :
    (a.append b).append c = a.append (b.append c) := by
  match a with
  | .nil => rfl
  | .cons k v fs => simp [BFields.append, fields_append_assoc fs b c]

theorem elems_append_assoc (a b c : BElems) :
    (a.append b).append c = a.append (b.append c) := by
  match a with
  | .nil => rfl
  | .cons v fs => simp [BElems.append, elems_append_assoc fs b c]

theorem BElems.drop_cons (aes : BElems) (i : Nat) (v : BVal) (rem : BElems)
    (h : aes.drop i = .cons v rem) :
    aes.get? i = some v ∧ aes.drop (i + 1) = rem := by
  match aes, i with
  | .nil, 0 => simp [BElems.drop] at h
  | .nil, j + 1 => simp [BElems.drop] at h
  | .cons w ws, 0 =>
    simp [BElems.drop] at h
    obtain ⟨h₁, h₂⟩ := h
    subst h₁; subst h₂
    exact ⟨rfl, by simp [BElems.drop]⟩
  | .cons w ws, j + 1 =>
    have h₁ : ws.drop j = .cons v rem := h
    exact BElems.drop_cons ws j v rem h₁

theorem BElems.get?_of_lt (aes : BElems) (i : Nat) (h : i < aes.length) :
    ∃ v, aes.get? i = some v := by
  match aes, i with
  | .nil, i => simp [BElems.length] at h
  | .cons w ws, 0 => exact ⟨w, rfl⟩
  | .cons w ws, j + 1 =>
    have hj : j < ws.length := by
      simpa [BElems.length, Nat.succ_lt_succ_iff] using h
    exact BElems.get?_of_lt ws j hj

theorem BElems.get?_of_ge (aes : BElems) (i : Nat) (h : aes.length ≤ i) :
    aes.get? i = none := by
  match aes, i with
  | .nil, 0 => rfl
  | .nil, j + 1 => rfl
  | .cons w ws, 0 => simp [BElems.length] at h
  | .cons w ws, j + 1 =>
    have hj : ws.length ≤ j := by
      simpa [BElems.length, Nat.succ_le_succ_iff] using h
    exact BElems.get?_of_ge ws j hj

theorem BFields.lookup_mem_keys (df : BFields) (nm : String) (v : BVal)
    (h : df.lookup nm = some v) : nm ∈ df.keys := by
  match df with
  | .nil => simp [BFields.lookup] at h
  | .cons k w fs =>
    by_cases hk : k = nm
    · subst hk; exact List.mem_cons_self _ _
    · simp [BFields.lookup, hk] at h
      exact List.mem_cons_of_mem _ (BFields.lookup_mem_keys fs nm v h)

theorem LookupAll.lift (nm₀ : String) (v₀ : BVal) (df : BFields) (fl : BFields)
    (h : LookupAll df fl) (hnot : nm₀ ∉ df.keys) :
    LookupAll (.cons nm₀ v₀ df) fl := by
  match fl with
  | .nil => trivial
  | .cons nm v fs =>
    obtain ⟨h₁, h₂⟩ := h
    refine ⟨?_, LookupAll.lift nm₀ v₀ df fs h₂ hnot⟩
    have hne : nm₀ ≠ nm := fun he => hnot (he ▸ BFields.lookup_mem_keys df nm v h₁)
    simp [BFields.lookup, hne, h₁]

theorem LookupAll.self (df : BFields) (h : distinctKeys df.keys = true) :
    LookupAll df df := by
  match df with
  | .nil => trivial
  | .cons nm v fs =>
    simp [BFields.keys, distinctKeys, Bool.and_eq_true] at h
    obtain ⟨hnot, hdk⟩ := h
    refine ⟨by simp [BFields.lookup], ?_⟩
    exact LookupAll.lift nm v fs fs (LookupAll.self fs hdk) hnot

theorem viewAt_of_drop (rv : List BFields) :
    ∀ (cv : Nat) (df : BFields) (l : List BFields),
      rv.drop cv = df :: l → viewAt rv cv = df := by
  induction rv with
  | nil => intro cv df l h; simp at h
  | cons d ds ih =>
    intro cv df l h
    cases cv with
    | zero => simp at h; simp [viewAt, h.1]
    | succ j => exact ih j df l h

/-! ## C3, C4, C10: the writeName and finishNode dispatch -/

/-- C3: when `finishNode` runs with the top of the node stack still in a
`Start` state, the empty container is materialized with exactly one
open/close pair: `StartArray` opens then immediately closes an array at any
depth; `StartObject` opens then closes a document exactly when the stack
depth exceeds 2; `InArray` closes the array and `InObject` with depth > 2
closes the document. -/
theorem finishNode_container_close (ar : BSONOutputArchive) :
    (∀ rest, ar.itsNodeStack = .StartArray :: rest →
      ar.finishNodeOps = ([.openArr, .closeArr], false))
    ∧ (∀ rest, ar.itsNodeStack = .InArray :: rest →
      ar.finishNodeOps = ([.closeArr], false))
    ∧ (∀ r₁ r₂ rest, ar.itsNodeStack = .StartObject :: r₁ :: r₂ :: rest →
      ar.finishNodeOps = ([.openDoc, .closeDoc], true))
    ∧ (∀ r₁ r₂ rest, ar.itsNodeStack = .InObject :: r₁ :: r₂ :: rest →
      ar.finishNodeOps = ([.closeDoc], true))
    ∧ (∀ rest, ar.itsNodeStack = .StartObject :: rest → rest.length < 2 →
      ar.finishNodeOps = ([], true))
    ∧ (∀ rest, ar.itsNodeStack = .InObject :: rest → rest.length < 2 →
      ar.finishNodeOps = ([], true)) := by
  refine ⟨?_, ?_, ?_, ?_, ?_, ?_⟩
  · intro rest h; simp [BSONOutputArchive.finishNodeOps, h]
  · intro rest h; simp [BSONOutputArchive.finishNodeOps, h]
  · intro r₁ r₂ rest h; simp [BSONOutputArchive.finishNodeOps, h]
  · intro r₁ r₂ rest h; simp [BSONOutputArchive.finishNodeOps, h]
  · intro rest h hlen
    match rest, hlen with
    | [], _ => simp [BSONOutputArchive.finishNodeOps, h]
    | [r₁], _ => simp [BSONOutputArchive.finishNodeOps, h]
  · intro rest h hlen
    match rest, hlen with
    | [], _ => simp [BSONOutputArchive.finishNodeOps, h]
    | [r₁], _ => simp [BSONOutputArchive.finishNodeOps, h]

/-- Witness for C3 at concrete stacks. -/
theorem finishNode_container_close_witness :
    (BSONOutputArchive.finishNodeOps
      ⟨Builder.init, [], none, [0, 0], [.StartArray, .Root]⟩
      = ([.openArr, .closeArr], false))
    ∧ (BSONOutputArchive.finishNodeOps
      ⟨Builder.init, [], none, [0, 0, 0], [.StartObject, .InObject, .Root]⟩
      = ([.openDoc, .closeDoc], true))
    ∧ (BSONOutputArchive.finishNodeOps
      ⟨Builder.init, [], none, [0, 0], [.StartObject, .Root]⟩
      = ([], true)) :=
  ⟨(finishNode_container_close _).1 _ rfl,
   (finishNode_container_close _).2.2.1 _ _ _ rfl,
   (finishNode_container_close _).2.2.2.2.1 _ rfl (by simp)⟩

/-- C4: `writeName` with a `StartArray` top opens the array and flips the
state to `InArray` without emitting a key; with an `InArray` top it emits
nothing; with a `StartObject` top it flips to `InObject`, opening a
document exactly when the stack depth exceeds 2, and then emits a key; in
any keyed position the pending name is consumed (and reset) when present,
and otherwise the synthesized key `value<N>` is emitted with the current
container counter post-incremented. -/
theorem writeName_dispatch (ar : BSONOutputArchive) :
    (∀ rest, ar.itsNodeStack = .StartArray :: rest →
      ar.writeNameStep =
        ((ar.itsNextName, ar.itsNameCounter, .InArray :: rest), [.openArr]))
    ∧ (∀ rest, ar.itsNodeStack = .InArray :: rest →
      ar.writeNameStep =
        ((ar.itsNextName, ar.itsNameCounter, .InArray :: rest), []))
    ∧ (∀ r₁ r₂ rest nm, ar.itsNodeStack = .StartObject :: r₁ :: r₂ :: rest →
      ar.itsNextName = some nm →
      ar.writeNameStep =
        ((none, ar.itsNameCounter, .InObject :: r₁ :: r₂ :: rest),
         [.openDoc, .keyOwned nm]))
    ∧ (∀ r₁ r₂ rest, ar.itsNodeStack = .StartObject :: r₁ :: r₂ :: rest →
      ar.itsNextName = none →
      ar.writeNameStep =
        ((none, (ar.itsNameCounter.headD 0 + 1) :: ar.itsNameCounter.tail,
          .InObject :: r₁ :: r₂ :: rest),
         [.openDoc,
          .keyOwned (String.append ("value") (Nat.repr (ar.itsNameCounter.headD 0)))]))
    ∧ (∀ rest nm, ar.itsNodeStack = .StartObject :: rest → rest.length < 2 →
      ar.itsNextName = some nm →
      ar.writeNameStep =
        ((none, ar.itsNameCounter, .InObject :: rest), [.keyOwned nm]))
    ∧ (∀ rest, ar.itsNodeStack = .StartObject :: rest → rest.length < 2 →
      ar.itsNextName = none →
      ar.writeNameStep =
        ((none, (ar.itsNameCounter.headD 0 + 1) :: ar.itsNameCounter.tail,
          .InObject :: rest),
         [.keyOwned (String.append ("value") (Nat.repr (ar.itsNameCounter.headD 0)))]))
    ∧ (∀ rest nm, ar.itsNodeStack = .InObject :: rest → ar.itsNextName = some nm →
      ar.writeNameStep =
        ((none, ar.itsNameCounter, .InObject :: rest), [.keyOwned nm]))
    ∧ (∀ rest, ar.itsNodeStack = .InObject :: rest → ar.itsNextName = none →
      ar.writeNameStep =
        ((none, (ar.itsNameCounter.headD 0 + 1) :: ar.itsNameCounter.tail,
          .InObject :: rest),
         [.keyOwned (String.append ("value") (Nat.repr (ar.itsNameCounter.headD 0)))])) := by
  refine ⟨?_, ?_, ?_, ?_, ?_, ?_, ?_, ?_⟩
  · intro rest h; simp [BSONOutputArchive.writeNameStep, h]
  · intro rest h; simp [BSONOutputArchive.writeNameStep, h]
  · intro r₁ r₂ rest nm h hn; simp [BSONOutputArchive.writeNameStep, h, hn]
  · intro r₁ r₂ rest h hn; simp [BSONOutputArchive.writeNameStep, h, hn]
  · intro rest nm h hlen hn
    match rest, hlen with
    | [], _ => simp [BSONOutputArchive.writeNameStep, h, hn]
    | [r₁], _ => simp [BSONOutputArchive.writeNameStep, h, hn]
  · intro rest h hlen hn
    match rest, hlen with
    | [], _ => simp [BSONOutputArchive.writeNameStep, h, hn]
    | [r₁], _ => simp [BSONOutputArchive.writeNameStep, h, hn]
  · intro rest nm h hn; simp [BSONOutputArchive.writeNameStep, h, hn]
  · intro rest h hn; simp [BSONOutputArchive.writeNameStep, h, hn]

/-- Witness for C4 at concrete states. -/
theorem writeName_dispatch_witness :
    (BSONOutputArchive.writeNameStep
      ⟨Builder.init, [], some ("k"), [0, 0], [.StartArray, .Root]⟩
      = ((some ("k"), [0, 0], [.InArray, .Root]), [.openArr]))
    ∧ (BSONOutputArchive.writeNameStep
      ⟨Builder.init, [], some ("k"), [0, 0, 0], [.StartObject, .InObject, .Root]⟩
      = ((none, [0, 0, 0], [.InObject, .InObject, .Root]), [.openDoc, .keyOwned ("k")]))
    ∧ (BSONOutputArchive.writeNameStep
      ⟨Builder.init, [], none, [0, 0], [.StartObject, .Root]⟩
      = ((none, [1, 0], [.InObject, .Root]), [.keyOwned ("value0")]))
    ∧ (BSONOutputArchive.writeNameStep
      ⟨Builder.init, [], none, [3, 0], [.InObject, .Root]⟩
      = ((none, [4, 0], [.InObject, .Root]), [.keyOwned ("value3")])) :=
  ⟨(writeName_dispatch _).1 _ rfl,
   (writeName_dispatch _).2.2.1 _ _ _ _ rfl rfl,
   (writeName_dispatch _).2.2.2.2.2.1 _ rfl (by simp) rfl,
   (writeName_dispatch _).2.2.2.2.2.2.2 _ rfl rfl⟩

/-- C10: `writeName` with `Root` on top of the node stack does not return
early: it still emits a key — the pending name if set, else the synthesized
`value<N>` with the root counter post-incremented.  Only an (original or
just-flipped) `InArray` top suppresses the key. -/
theorem writeName_at_root_writes_key (ar : BSONOutputArchive) :
    (∀ rest nm, ar.itsNodeStack = .Root :: rest → ar.itsNextName = some nm →
      ar.writeNameStep =
        ((none, ar.itsNameCounter, .Root :: rest), [.keyOwned nm]))
    ∧ (∀ rest, ar.itsNodeStack = .Root :: rest → ar.itsNextName = none →
      ar.writeNameStep =
        ((none, (ar.itsNameCounter.headD 0 + 1) :: ar.itsNameCounter.tail,
          .Root :: rest),
         [.keyOwned (String.append ("value") (Nat.repr (ar.itsNameCounter.headD 0)))]))
    ∧ (∀ top rest,
      ar.itsNodeStack = top :: rest →
      (∀ k, .keyOwned k ∉ (ar.writeNameStep).2) →
      (top = .InArray ∨ top = .StartArray)) := by
  refine ⟨?_, ?_, ?_⟩
  · intro rest nm h hn; simp [BSONOutputArchive.writeNameStep, h, hn]
  · intro rest h hn; simp [BSONOutputArchive.writeNameStep, h, hn]
  · intro top rest h hk
    cases top with
    | InArray => exact Or.inl rfl
    | StartArray => exact Or.inr rfl
    | Root =>
      exfalso
      cases hn : ar.itsNextName with
      | none =>
        exact hk (String.append ("value") (Nat.repr (ar.itsNameCounter.headD 0)))
          (by simp [BSONOutputArchive.writeNameStep, h, hn])
      | some nm => exact hk nm (by simp [BSONOutputArchive.writeNameStep, h, hn])
    | StartObject =>
      exfalso
      cases hn : ar.itsNextName with
      | none =>
        match rest with
        | [] =>
          exact hk (String.append ("value") (Nat.repr (ar.itsNameCounter.headD 0)))
            (by simp [BSONOutputArchive.writeNameStep, h, hn])
        | [r₁] =>
          exact hk (String.append ("value") (Nat.repr (ar.itsNameCounter.headD 0)))
            (by simp [BSONOutputArchive.writeNameStep, h, hn])
        | r₁ :: r₂ :: rs =>
          exact hk (String.append ("value") (Nat.repr (ar.itsNameCounter.headD 0)))
            (by simp [BSONOutputArchive.writeNameStep, h, hn])
      | some nm =>
        match rest with
        | [] => exact hk nm (by simp [BSONOutputArchive.writeNameStep, h, hn])
        | [r₁] => exact hk nm (by simp [BSONOutputArchive.writeNameStep, h, hn])
        | r₁ :: r₂ :: rs => exact hk nm (by simp [BSONOutputArchive.writeNameStep, h, hn])
    | InObject =>
      exfalso
      cases hn : ar.itsNextName with
      | none =>
        exact hk (String.append ("value") (Nat.repr (ar.itsNameCounter.headD 0)))
          (by simp [BSONOutputArchive.writeNameStep, h, hn])
      | some nm => exact hk nm (by simp [BSONOutputArchive.writeNameStep, h, hn])

/-- Witness for C10 at a concrete root-level state. -/
theorem writeName_at_root_writes_key_witness :
    (BSONOutputArchive.writeNameStep ⟨Builder.init, [], none, [0], [.Root]⟩
      = ((none, [1], [.Root]), [.keyOwned ("value0")]))
    ∧ (BSONOutputArchive.writeNameStep ⟨Builder.init, [], some ("top"), [0], [.Root]⟩
      = ((none, [0], [.Root]), [.keyOwned ("top")])) :=
  ⟨(writeName_at_root_writes_key _).2.1 _ rfl rfl,
   (writeName_at_root_writes_key _).1 _ _ rfl rfl⟩

/-! ## C5: the missing-key lookup error -/

/-- C5: during decode with a pending name and an object scope (`InObject`
over the current root view, `InEmbeddedObject` over the top embedded
document), a key absent from the scope's view raises the fatal lookup
error with the archive — iterators included — exactly as it was; a found
key is returned with only the pending name cleared. -/
theorem search_missing_key (ar : BSONInputArchive) (nm : String) :
    (∀ ns, ar.itsNextName = some nm → ar.itsNodeStack = .InObject :: ns →
      (viewAt ar.bsonViews ar.curBsonView).lookup nm = none →
      ar.search = (.error (.lookupErr nm), ar))
    ∧ (∀ ns df dtl, ar.itsNextName = some nm → ar.itsNodeStack = .InEmbeddedObject :: ns →
      ar.embeddedBsonDocStack = df :: dtl → df.lookup nm = none →
      ar.search = (.error (.lookupErr nm), ar))
    ∧ (∀ ns v, ar.itsNextName = some nm → ar.itsNodeStack = .InObject :: ns →
      (viewAt ar.bsonViews ar.curBsonView).lookup nm = some v →
      ar.search = (.ok (some v), { ar with itsNextName := none }))
    ∧ (∀ ns df dtl v, ar.itsNextName = some nm → ar.itsNodeStack = .InEmbeddedObject :: ns →
      ar.embeddedBsonDocStack = df :: dtl → df.lookup nm = some v →
      ar.search = (.ok (some v), { ar with itsNextName := none })) := by
  refine ⟨?_, ?_, ?_, ?_⟩
  · intro ns hn hs hl; simp [BSONInputArchive.search, hn, hs, hl]
  · intro ns df dtl hn hs hd hl; simp [BSONInputArchive.search, hn, hs, hd, hl]
  · intro ns v hn hs hl; simp [BSONInputArchive.search, hn, hs, hl]
  · intro ns df dtl v hn hs hd hl; simp [BSONInputArchive.search, hn, hs, hd, hl]

/-- Witness for C5: looking up a missing key in a one-field root object
errs and leaves the archive untouched; the present key succeeds. -/
theorem search_missing_key_witness :
    (BSONInputArchive.search
      ⟨some ("b"), [.cons ("a") (.scalar (.bBool true)) .nil], 0, [], [], [7], [.InObject, .Root]⟩
      = (.error (.lookupErr ("b")),
         ⟨some ("b"), [.cons ("a") (.scalar (.bBool true)) .nil], 0, [], [], [7], [.InObject, .Root]⟩))
    ∧ (BSONInputArchive.search
      ⟨some ("a"), [.cons ("a") (.scalar (.bBool true)) .nil], 0, [], [], [7], [.InObject, .Root]⟩
      = (.ok (some (.scalar (.bBool true))),
         ⟨none, [.cons ("a") (.scalar (.bBool true)) .nil], 0, [], [], [7], [.InObject, .Root]⟩)) :=
  ⟨(search_missing_key _ _).1 _ rfl rfl rfl,
   (search_missing_key _ _).2.2.1 _ _ rfl rfl rfl⟩

/-! ## C6: the startNode dispatch -/

/-- C6: inside an object, embedded object or embedded array, `startNode`
resolves the next element via `search`: a document pushes an
embedded-document frame and `InEmbeddedObject`; an array pushes
embedded-array and iterator frames and `InEmbeddedArray`; any other
resolved element — scalar or invalid sentinel — is a fatal error, as is a
failing `search`.  At `Root` it just pushes `InObject`, leaving the
embedded stacks and cursor untouched. -/
theorem startNode_dispatch (ar : BSONInputArchive) :
    (∀ df a₁, ((∃ ns, ar.itsNodeStack = .InObject :: ns)
        ∨ (∃ ns, ar.itsNodeStack = .InEmbeddedObject :: ns)
        ∨ (∃ ns, ar.itsNodeStack = .InEmbeddedArray :: ns)) →
      ar.search = (.ok (some (.doc df)), a₁) →
      ar.startNode = .ok { a₁ with
        embeddedBsonDocStack := df :: a₁.embeddedBsonDocStack
        itsNodeStack := .InEmbeddedObject :: a₁.itsNodeStack })
    ∧ (∀ el a₁, ((∃ ns, ar.itsNodeStack = .InObject :: ns)
        ∨ (∃ ns, ar.itsNodeStack = .InEmbeddedObject :: ns)
        ∨ (∃ ns, ar.itsNodeStack = .InEmbeddedArray :: ns)) →
      ar.search = (.ok (some (.arr el)), a₁) →
      ar.startNode = .ok { a₁ with
        embeddedBsonArrayStack := el :: a₁.embeddedBsonArrayStack
        embeddedBsonArrayIteratorStack := 0 :: a₁.embeddedBsonArrayIteratorStack
        itsNodeStack := .InEmbeddedArray :: a₁.itsNodeStack })
    ∧ (∀ sc a₁, ((∃ ns, ar.itsNodeStack = .InObject :: ns)
        ∨ (∃ ns, ar.itsNodeStack = .InEmbeddedObject :: ns)
        ∨ (∃ ns, ar.itsNodeStack = .InEmbeddedArray :: ns)) →
      ar.search = (.ok (some (.scalar sc)), a₁) →
      ar.startNode = .error .structuralErr)
    ∧ (∀ a₁, ((∃ ns, ar.itsNodeStack = .InObject :: ns)
        ∨ (∃ ns, ar.itsNodeStack = .InEmbeddedObject :: ns)
        ∨ (∃ ns, ar.itsNodeStack = .InEmbeddedArray :: ns)) →
      ar.search = (.ok none, a₁) → ar.startNode = .error .invalidElem)
    ∧ (∀ e a₁, ((∃ ns, ar.itsNodeStack = .InObject :: ns)
        ∨ (∃ ns, ar.itsNodeStack = .InEmbeddedObject :: ns)
        ∨ (∃ ns, ar.itsNodeStack = .InEmbeddedArray :: ns)) →
      ar.search = (.error e, a₁) → ar.startNode = .error e)
    ∧ (∀ ns, ar.itsNodeStack = .Root :: ns →
      ar.startNode = .ok { ar with itsNodeStack := .InObject :: .Root :: ns }) := by
  refine ⟨?_, ?_, ?_, ?_, ?_, ?_⟩
  · intro df a₁ htop h
    rcases htop with ⟨ns, h₁⟩ | ⟨ns, h₁⟩ | ⟨ns, h₁⟩ <;>
      simp [BSONInputArchive.startNode, h₁, h]
  · intro el a₁ htop h
    rcases htop with ⟨ns, h₁⟩ | ⟨ns, h₁⟩ | ⟨ns, h₁⟩ <;>
      simp [BSONInputArchive.startNode, h₁, h]
  · intro sc a₁ htop h
    rcases htop with ⟨ns, h₁⟩ | ⟨ns, h₁⟩ | ⟨ns, h₁⟩ <;>
      simp [BSONInputArchive.startNode, h₁, h]
  · intro a₁ htop h
    rcases htop with ⟨ns, h₁⟩ | ⟨ns, h₁⟩ | ⟨ns, h₁⟩ <;>
      simp [BSONInputArchive.startNode, h₁, h]
  · intro e a₁ htop h
    rcases htop with ⟨ns, h₁⟩ | ⟨ns, h₁⟩ | ⟨ns, h₁⟩ <;>
      simp [BSONInputArchive.startNode, h₁, h]
  · intro ns h₁
    simp [BSONInputArchive.startNode, h₁]

/-- Witness for C6 at concrete archives: a named embedded document is
entered, and a named scalar is a structural error. -/
theorem startNode_dispatch_witness :
    BSONInputArchive.startNode ⟨some ("a"), [docFieldDoc], 0, [], [], [], [.InObject, .Root]⟩
      = .ok ⟨none, [docFieldDoc], 0, [.cons ("x") (.scalar (.bInt32 5)) .nil], [], [],
        [.InEmbeddedObject, .InObject, .Root]⟩
    ∧ BSONInputArchive.startNode ⟨some ("a"), [scalarFieldDoc], 0, [], [], [], [.InObject, .Root]⟩
      = .error .structuralErr := by
  constructor
  · exact (startNode_dispatch
      ⟨some ("a"), [docFieldDoc], 0, [], [], [], [.InObject, .Root]⟩).1
      (.cons ("x") (.scalar (.bInt32 5)) .nil)
      ⟨none, [docFieldDoc], 0, [], [], [], [.InObject, .Root]⟩
      (Or.inl ⟨[.Root], rfl⟩) rfl
  · exact (startNode_dispatch
      ⟨some ("a"), [scalarFieldDoc], 0, [], [], [], [.InObject, .Root]⟩).2.2.1
      (.bInt32 5)
      ⟨none, [scalarFieldDoc], 0, [], [], [], [.InObject, .Root]⟩
      (Or.inl ⟨[.Root], rfl⟩) rfl

/-! ## C7: loadSize and sequential array reads -/

/-- C7: `loadSize` is a fatal error whenever the state is not
`InEmbeddedArray`; inside an embedded array it returns the length of the
top array view.  Reading the elements of an array of length `N`
sequentially (no pending name), the read at every iterator position
`i < N` succeeds and advances the iterator, while the read at position `N`
— the `(N+1)`-th read — raises the fatal bounds error. -/
theorem loadSize_and_array_reads (ar : BSONInputArchive) :
    (ar.itsNodeStack.headD .Root ≠ .InEmbeddedArray →
      ar.loadSize = .error .sizeTagErr)
    ∧ (∀ ns aes atl, ar.itsNodeStack = .InEmbeddedArray :: ns →
      ar.embeddedBsonArrayStack = aes :: atl →
      ar.loadSize = .ok (aes.length, ar))
    ∧ (∀ ns aes atl i itl, ar.itsNodeStack = .InEmbeddedArray :: ns →
      ar.embeddedBsonArrayStack = aes :: atl →
      ar.embeddedBsonArrayIteratorStack = i :: itl →
      ar.itsNextName = none → i < aes.length →
      ∃ v, aes.get? i = some v ∧
        ar.search = (.ok (some v),
          { ar with embeddedBsonArrayIteratorStack := (i + 1) :: itl }))
    ∧ (∀ ns aes atl i itl, ar.itsNodeStack = .InEmbeddedArray :: ns →
      ar.embeddedBsonArrayStack = aes :: atl →
      ar.embeddedBsonArrayIteratorStack = i :: itl →
      ar.itsNextName = none → aes.length ≤ i →
      ar.search = (.error .boundsErr,
        { ar with embeddedBsonArrayIteratorStack := (i + 1) :: itl })) := by
  refine ⟨?_, ?_, ?_, ?_⟩
  · intro h
    match h₂ : ar.itsNodeStack with
    | [] => simp [BSONInputArchive.loadSize, h₂]
    | top :: ns =>
      have h₃ : top ≠ .InEmbeddedArray := by rw [h₂] at h; simpa using h
      cases top with
      | Root => simp [BSONInputArchive.loadSize, h₂]
      | InObject => simp [BSONInputArchive.loadSize, h₂]
      | InEmbeddedObject => simp [BSONInputArchive.loadSize, h₂]
      | InEmbeddedArray => exact absurd rfl h₃
  · intro ns aes atl h₁ h₂
    simp [BSONInputArchive.loadSize, h₁, h₂]
  · intro ns aes atl i itl h₁ h₂ h₃ h₄ hlt
    obtain ⟨v, hv⟩ := BElems.get?_of_lt aes i hlt
    exact ⟨v, hv, by simp [BSONInputArchive.search, h₁, h₂, h₃, h₄, hv]⟩
  · intro ns aes atl i itl h₁ h₂ h₃ h₄ hge
    have hv := BElems.get?_of_ge aes i hge
    simp [BSONInputArchive.search, h₁, h₂, h₃, h₄, hv]

/-- Witness for C7 on a two-element embedded array: the size is 2, the
second read succeeds, and the third read is a bounds error. -/
theorem loadSize_and_array_reads_witness :
    (arrArchive 0).loadSize = .ok (2, arrArchive 0)
    ∧ (arrArchive 1).search = (.ok (some (.scalar (.bBool false))), arrArchive 2)
    ∧ (arrArchive 2).search = (.error .boundsErr, arrArchive 3) := by
  refine ⟨?_, ?_, ?_⟩
  · exact (loadSize_and_array_reads (arrArchive 0)).2.1
      [.InObject, .Root] twoBools [] rfl rfl
  · obtain ⟨v, hv, hs⟩ := (loadSize_and_array_reads (arrArchive 1)).2.2.1
      [.InObject, .Root] twoBools [] 1 [] rfl rfl rfl rfl (by decide)
    have hv₂ : some (BVal.scalar (.bBool false)) = some v := by rw [← hv]; rfl
    cases hv₂
    exact hs
  · exact (loadSize_and_array_reads (arrArchive 2)).2.2.2
      [.InObject, .Root] twoBools [] 2 [] rfl rfl rfl rfl (by decide)

/-! ## C9: the node and name-counter stacks move in lockstep -/

theorem writeName_lengths (ar : BSONOutputArchive) (c : Nat) (ctl : List Nat)
    (hc : ar.itsNameCounter = c :: ctl) :
    (ar.writeName).itsNodeStack.length = ar.itsNodeStack.length
    ∧ (ar.writeName).itsNameCounter.length = ar.itsNameCounter.length := by
  match h : ar.itsNodeStack with
  | [] =>
    cases hn : ar.itsNextName <;>
      simp [BSONOutputArchive.writeName, BSONOutputArchive.writeNameStep, h, hn, hc]
  | top :: rest =>
    cases top <;> cases hn : ar.itsNextName <;>
      simp [BSONOutputArchive.writeName, BSONOutputArchive.writeNameStep, h, hn, hc]

theorem finishNode_stacks (ar : BSONOutputArchive) :
    (ar.finishNode).itsNodeStack = ar.itsNodeStack.tail
    ∧ (ar.finishNode).itsNameCounter = ar.itsNameCounter.tail := by
  rcases h : ar.finishNodeOps with ⟨ops, cb⟩
  simp only [BSONOutputArchive.finishNode, h]
  split <;> exact ⟨rfl, rfl⟩

theorem makeArray_lengths (ar : BSONOutputArchive) :
    (ar.makeArray).itsNodeStack.length = ar.itsNodeStack.length
    ∧ (ar.makeArray).itsNameCounter = ar.itsNameCounter := by
  match h : ar.itsNodeStack with
  | [] => simp [BSONOutputArchive.makeArray, h]
  | top :: rest => simp [BSONOutputArchive.makeArray, h]

theorem balancedFrom_append (pre : List EncOp) :
    ∀ (suf : List EncOp) (d : Nat),
      balancedFrom d (pre ++ suf) = true → balancedFrom d pre = true := by
  induction pre with
  | nil => intro suf d _; rfl
  | cons op pre ih =>
    intro suf d h
    cases op with
    | startNode => exact ih suf (d + 1) h
    | finishNode =>
      cases d with
      | zero => simp [balancedFrom] at h
      | succ e => exact ih suf e h
    | makeArray => exact ih suf d h
    | writeName => exact ih suf d h
    | setNextName nm => exact ih suf d h
    | saveValue sc => exact ih suf d h

theorem run_inv (ops : List EncOp) :
    ∀ (d : Nat) (ar : BSONOutputArchive), balancedFrom d ops = true →
      ar.itsNodeStack.length = d + 1 → ar.itsNameCounter.length = d + 1 →
      ∃ d₂, (ar.run ops).itsNodeStack.length = d₂ + 1
        ∧ (ar.run ops).itsNameCounter.length = d₂ + 1 := by
  induction ops with
  | nil => intro d ar _ h1 h2; exact ⟨d, h1, h2⟩
  | cons op ops ih =>
    intro d ar hb h1 h2
    have hcne : ar.itsNameCounter ≠ [] := by
      intro hnil; rw [hnil] at h2; simp at h2
    obtain ⟨c, ctl, hc⟩ : ∃ c ctl, ar.itsNameCounter = c :: ctl := by
      match hm : ar.itsNameCounter with
      | [] => exact absurd hm hcne
      | c :: ctl => exact ⟨c, ctl, rfl⟩
    cases op with
    | startNode =>
      refine ih (d + 1) ar.startNode hb ?_ ?_
      · have := (writeName_lengths ar c ctl hc).1
        simp [BSONOutputArchive.startNode, this, h1]
      · have := (writeName_lengths ar c ctl hc).2
        simp [BSONOutputArchive.startNode, this, h2]
    | finishNode =>
      cases d with
      | zero => simp [balancedFrom] at hb
      | succ e =>
        refine ih e ar.finishNode hb ?_ ?_
        · rw [(finishNode_stacks ar).1, List.length_tail, h1]; omega
        · rw [(finishNode_stacks ar).2, List.length_tail, h2]; omega
    | makeArray =>
      refine ih d ar.makeArray hb ?_ ?_
      · rw [(makeArray_lengths ar).1, h1]
      · rw [(makeArray_lengths ar).2, h2]
    | writeName =>
      refine ih d ar.writeName hb ?_ ?_
      · rw [(writeName_lengths ar c ctl hc).1, h1]
      · rw [(writeName_lengths ar c ctl hc).2, h2]
    | setNextName nm => exact ih d (ar.setNextName nm) hb h1 h2
    | saveValue sc => exact ih d (ar.saveValue sc) hb h1 h2

/-- C9: under any operation sequence whose `finishNode` calls are balanced
against open containers, after any prefix of the sequence the encoder's
node stack is never empty (the root sentinel position pushed by the
constructor is never popped) and the name-counter stack has exactly the
same depth as the node stack: every operation pushes or pops the two in
lockstep. -/
theorem encoder_stack_lockstep (ops pre suf : List EncOp)
    (hb : balancedFrom 0 ops = true) (hsplit : ops = pre ++ suf) :
    (BSONOutputArchive.start.run pre).itsNodeStack ≠ []
    ∧ (BSONOutputArchive.start.run pre).itsNameCounter.length
        = (BSONOutputArchive.start.run pre).itsNodeStack.length := by
  have hpre : balancedFrom 0 pre = true :=
    balancedFrom_append pre suf 0 (hsplit ▸ hb)
  obtain ⟨d₂, h1, h2⟩ := run_inv pre 0 BSONOutputArchive.start hpre rfl rfl
  constructor
  · intro hnil; rw [hnil] at h1; simp at h1
  · rw [h1, h2]

/-- Witness for C9: a balanced sequence with two nested containers,
stopped after three of its four operations. -/
theorem encoder_stack_lockstep_witness :
    (BSONOutputArchive.start.run [.startNode, .startNode, .finishNode]).itsNodeStack ≠ []
    ∧ (BSONOutputArchive.start.run [.startNode, .startNode, .finishNode]).itsNameCounter.length
        = (BSONOutputArchive.start.run [.startNode, .startNode, .finishNode]).itsNodeStack.length :=
  encoder_stack_lockstep [.startNode, .startNode, .finishNode, .finishNode]
    [.startNode, .startNode, .finishNode] [.finishNode] rfl rfl

/-! ## C2: the flush on returning to Root fires only for objects -/

/-- C2 (divergence evidence): serializing a top-level two-element array
completes its container — the node stack returns to exactly `[Root]` — yet
nothing is written to the sink, because `finishNode` sets `closedObj` only
in the object arms of its switch.  The array data stays in the builder and
leaks into the document flushed for the next root-level object, exactly as
the source's own TODO comment records. -/
theorem root_array_not_flushed :
    (saveTree BSONOutputArchive.start rootArrTree).itsWriteStream = []
    ∧ (saveTree BSONOutputArchive.start rootArrTree).itsNodeStack = [.Root]
    ∧ encodeMany [rootArrTree, .doc .nil] = [.cons ("value0") rootArrTree .nil] :=
  ⟨rfl, rfl, rfl⟩

/-! ## C1, the counterexample: a root-level array does not round-trip -/

/-- C1 fails as stated: the two-element root array matches its traversal
shape and has good keys, yet serializing it and deserializing the produced
bytes does not yield the tree back — the encoder flushed no document, so
the decoder's `loadSize` runs outside any embedded array and raises the
fatal structural error instead. -/
theorem roundtrip_root_array_fails :
    hasShape rootArrTree (.arr (.scalar .int32)) = true
    ∧ goodKeys rootArrTree = true
    ∧ loadTree (BSONInputArchive.start (encodeMany [rootArrTree]))
        (.arr (.scalar .int32)) = .error .sizeTagErr :=
  ⟨rfl, rfl, rfl⟩

/-! ## Encoding: what one saved subtree adds to the builder

The `Start` to `In` flip of a frame is deferred to the first `writeName`
inside it; the lemmas below normalize a state whose top is still `Start`
to the corresponding already-flipped state, after which a saved subtree is
exactly one element appended to the innermost open frame. -/

theorem fields_append_nil (d : BFields) : d.append .nil = d := by
  match d with
  | .nil => rfl
  | .cons k v fs => simp [BFields.append, fields_append_nil fs]

theorem elems_append_nil (es : BElems) : es.append .nil = es := by
  match es with
  | .nil => rfl
  | .cons v fs => simp [BElems.append, elems_append_nil fs]

theorem saveTree_congr (t : BVal) (s₁ s₂ : BSONOutputArchive)
    (h : s₁.writeName = s₂.writeName) : saveTree s₁ t = saveTree s₂ t := by
  cases t with
  | scalar sc => simp [saveTree, h]
  | doc fl => simp [saveTree, BSONOutputArchive.startNode, h]
  | arr el => simp [saveTree, BSONOutputArchive.startNode, h]

theorem writeName_flip_obj_doc (pk d k fs strm nm? cnts r₁ r₂ rest) :
    BSONOutputArchive.writeName
      ⟨⟨.doc pk d k :: fs⟩, strm, nm?, cnts, .StartObject :: r₁ :: r₂ :: rest⟩
    = BSONOutputArchive.writeName
      ⟨⟨.doc k .nil none :: .doc pk d none :: fs⟩, strm, nm?, cnts,
        .InObject :: r₁ :: r₂ :: rest⟩ := by
  cases nm? <;> rfl

theorem writeName_flip_obj_arr (ak es fs strm nm? cnts r₁ r₂ rest) :
    BSONOutputArchive.writeName
      ⟨⟨.arr ak es :: fs⟩, strm, nm?, cnts, .StartObject :: r₁ :: r₂ :: rest⟩
    = BSONOutputArchive.writeName
      ⟨⟨.doc none .nil none :: .arr ak es :: fs⟩, strm, nm?, cnts,
        .InObject :: r₁ :: r₂ :: rest⟩ := by
  cases nm? <;> rfl

theorem writeName_flip_obj_shallow (b strm nm? cnts r₁) :
    BSONOutputArchive.writeName ⟨b, strm, nm?, cnts, [.StartObject, r₁]⟩
    = BSONOutputArchive.writeName ⟨b, strm, nm?, cnts, [.InObject, r₁]⟩ := by
  cases nm? <;> rfl

theorem writeName_flip_arr_doc (pk d k fs strm nm? cnts rest) :
    BSONOutputArchive.writeName
      ⟨⟨.doc pk d k :: fs⟩, strm, nm?, cnts, .StartArray :: rest⟩
    = BSONOutputArchive.writeName
      ⟨⟨.arr k .nil :: .doc pk d none :: fs⟩, strm, nm?, cnts, .InArray :: rest⟩ := by
  cases nm? <;> rfl

theorem writeName_flip_arr_arr (ak es fs strm nm? cnts rest) :
    BSONOutputArchive.writeName
      ⟨⟨.arr ak es :: fs⟩, strm, nm?, cnts, .StartArray :: rest⟩
    = BSONOutputArchive.writeName
      ⟨⟨.arr none .nil :: .arr ak es :: fs⟩, strm, nm?, cnts, .InArray :: rest⟩ := by
  cases nm? <;> rfl

mutual

theorem saveVal_named (t : BVal) (nm : String) (pk k₀ : Option String) (d : BFields)
    (fs : List BFrame) (strm : List BFields) (cnts : List Nat)
    (r₀ : NodeType) (rest : List NodeType) :
    saveTree ⟨⟨.doc pk d k₀ :: fs⟩, strm, some nm, cnts, .InObject :: r₀ :: rest⟩ t
    = ⟨⟨.doc pk (d.append (.cons nm t .nil)) none :: fs⟩, strm, none, cnts,
        .InObject :: r₀ :: rest⟩ := by
  match t with
  | .scalar sc => rfl
  | .doc .nil => rfl
  | .doc (.cons nm₁ t₁ fl₁) =>
    have h₁ : saveTree ⟨⟨.doc pk d k₀ :: fs⟩, strm, some nm, cnts,
        .InObject :: r₀ :: rest⟩ (.doc (.cons nm₁ t₁ fl₁))
      = (saveFields (saveTree
          ⟨⟨.doc pk d (some nm) :: fs⟩, strm, some nm₁, 0 :: cnts,
            .StartObject :: .InObject :: r₀ :: rest⟩ t₁) fl₁).finishNode := rfl
    have h₂ := saveTree_congr t₁ _ _
      (writeName_flip_obj_doc pk d (some nm) fs strm (some nm₁) (0 :: cnts)
        .InObject r₀ rest)
    rw [h₁, h₂, saveVal_named t₁ nm₁ (some nm) none .nil (.doc pk d none :: fs)
        strm (0 :: cnts) .InObject (r₀ :: rest),
      saveFields_in fl₁ (some nm) (BFields.nil.append (.cons nm₁ t₁ .nil))
        (.doc pk d none :: fs) strm (0 :: cnts) .InObject (r₀ :: rest)]
    rfl
  | .arr .nil => rfl
  | .arr (.cons t₁ el₁) =>
    have h₁ : saveTree ⟨⟨.doc pk d k₀ :: fs⟩, strm, some nm, cnts,
        .InObject :: r₀ :: rest⟩ (.arr (.cons t₁ el₁))
      = (saveElems (saveTree
          ⟨⟨.doc pk d (some nm) :: fs⟩, strm, none, 0 :: cnts,
            .StartArray :: .InObject :: r₀ :: rest⟩ t₁) el₁).finishNode := rfl
    have h₂ := saveTree_congr t₁ _ _
      (writeName_flip_arr_doc pk d (some nm) fs strm none (0 :: cnts)
        (.InObject :: r₀ :: rest))
    rw [h₁, h₂, saveVal_elem t₁ (some nm) .nil (.doc pk d none :: fs) strm
        (0 :: cnts) .InObject (r₀ :: rest),
      saveElems_in el₁ (some nm) (BElems.nil.append (.cons t₁ .nil))
        (.doc pk d none :: fs) strm (0 :: cnts) .InObject (r₀ :: rest)]
    rfl

theorem saveVal_elem (t : BVal) (ak : Option String) (es : BElems)
    (fs : List BFrame) (strm : List BFields) (cnts : List Nat)
    (r₀ : NodeType) (rest : List NodeType) :
    saveTree ⟨⟨.arr ak es :: fs⟩, strm, none, cnts, .InArray :: r₀ :: rest⟩ t
    = ⟨⟨.arr ak (es.append (.cons t .nil)) :: fs⟩, strm, none, cnts,
        .InArray :: r₀ :: rest⟩ := by
  match t with
  | .scalar sc => rfl
  | .doc .nil => rfl
  | .doc (.cons nm₁ t₁ fl₁) =>
    have h₁ : saveTree ⟨⟨.arr ak es :: fs⟩, strm, none, cnts,
        .InArray :: r₀ :: rest⟩ (.doc (.cons nm₁ t₁ fl₁))
      = (saveFields (saveTree
          ⟨⟨.arr ak es :: fs⟩, strm, some nm₁, 0 :: cnts,
            .StartObject :: .InArray :: r₀ :: rest⟩ t₁) fl₁).finishNode := rfl
    have h₂ := saveTree_congr t₁ _ _
      (writeName_flip_obj_arr ak es fs strm (some nm₁) (0 :: cnts)
        .InArray r₀ rest)
    rw [h₁, h₂, saveVal_named t₁ nm₁ none none .nil (.arr ak es :: fs) strm
        (0 :: cnts) .InArray (r₀ :: rest),
      saveFields_in fl₁ none (BFields.nil.append (.cons nm₁ t₁ .nil))
        (.arr ak es :: fs) strm (0 :: cnts) .InArray (r₀ :: rest)]
    rfl
  | .arr .nil => rfl
  | .arr (.cons t₁ el₁) =>
    have h₁ : saveTree ⟨⟨.arr ak es :: fs⟩, strm, none, cnts,
        .InArray :: r₀ :: rest⟩ (.arr (.cons t₁ el₁))
      = (saveElems (saveTree
          ⟨⟨.arr ak es :: fs⟩, strm, none, 0 :: cnts,
            .StartArray :: .InArray :: r₀ :: rest⟩ t₁) el₁).finishNode := rfl
    have h₂ := saveTree_congr t₁ _ _
      (writeName_flip_arr_arr ak es fs strm none (0 :: cnts)
        (.InArray :: r₀ :: rest))
    rw [h₁, h₂, saveVal_elem t₁ none .nil (.arr ak es :: fs) strm
        (0 :: cnts) .InArray (r₀ :: rest),
      saveElems_in el₁ none (BElems.nil.append (.cons t₁ .nil))
        (.arr ak es :: fs) strm (0 :: cnts) .InArray (r₀ :: rest)]
    rfl

theorem saveFields_in (fl : BFields) (pk : Option String) (d : BFields)
    (fs : List BFrame) (strm : List BFields) (cnts : List Nat)
    (r₀ : NodeType) (rest : List NodeType) :
    saveFields ⟨⟨.doc pk d none :: fs⟩, strm, none, cnts,
        .InObject :: r₀ :: rest⟩ fl
    = ⟨⟨.doc pk (d.append fl) none :: fs⟩, strm, none, cnts,
        .InObject :: r₀ :: rest⟩ := by
  match fl with
  | .nil => rw [fields_append_nil]; rfl
  | .cons nm₁ t₁ fl₁ =>
    have h₁ : saveFields ⟨⟨.doc pk d none :: fs⟩, strm, none, cnts,
        .InObject :: r₀ :: rest⟩ (.cons nm₁ t₁ fl₁)
      = saveFields (saveTree ⟨⟨.doc pk d none :: fs⟩, strm, some nm₁, cnts,
          .InObject :: r₀ :: rest⟩ t₁) fl₁ := rfl
    rw [h₁, saveVal_named t₁ nm₁ pk none d fs strm cnts r₀ rest,
      saveFields_in fl₁ pk (d.append (.cons nm₁ t₁ .nil)) fs strm cnts r₀ rest,
      fields_append_assoc]
    rfl

theorem saveElems_in (el : BElems) (ak : Option String) (es : BElems)
    (fs : List BFrame) (strm : List BFields) (cnts : List Nat)
    (r₀ : NodeType) (rest : List NodeType) :
    saveElems ⟨⟨.arr ak es :: fs⟩, strm, none, cnts,
        .InArray :: r₀ :: rest⟩ el
    = ⟨⟨.arr ak (es.append el) :: fs⟩, strm, none, cnts,
        .InArray :: r₀ :: rest⟩ := by
  match el with
  | .nil => rw [elems_append_nil]; rfl
  | .cons t₁ el₁ =>
    have h₁ : saveElems ⟨⟨.arr ak es :: fs⟩, strm, none, cnts,
        .InArray :: r₀ :: rest⟩ (.cons t₁ el₁)
      = saveElems (saveTree ⟨⟨.arr ak es :: fs⟩, strm, none, cnts,
          .InArray :: r₀ :: rest⟩ t₁) el₁ := rfl
    rw [h₁, saveVal_elem t₁ ak es fs strm cnts r₀ rest,
      saveElems_in el₁ ak (es.append (.cons t₁ .nil)) fs strm cnts r₀ rest,
      elems_append_assoc]
    rfl

end

/-! ## Encoding at root level: one flushed document per root object -/

theorem saveTree_root (fl : BFields) (c : Nat) (strm : List BFields) (k₀ : Option String) :
    saveTree ⟨⟨[.doc none .nil k₀]⟩, strm, none, [c], [.Root]⟩ (.doc fl)
    = ⟨⟨[.doc none .nil none]⟩, strm ++ [fl], none, [c + 1], [.Root]⟩ := by
  match fl with
  | .nil => rfl
  | .cons nm₁ t₁ fl₁ =>
    have h₁ : saveTree ⟨⟨[.doc none .nil k₀]⟩, strm, none, [c], [.Root]⟩
        (.doc (.cons nm₁ t₁ fl₁))
      = (saveFields (saveTree
          ⟨⟨[.doc none .nil (some (String.append ("value") (Nat.repr c)))]⟩,
            strm, some nm₁, [0, c + 1], [.StartObject, .Root]⟩ t₁) fl₁).finishNode := rfl
    have h₂ := saveTree_congr t₁ _ _ (writeName_flip_obj_shallow
      ⟨[.doc none .nil (some (String.append ("value") (Nat.repr c)))]⟩
      strm (some nm₁) [0, c + 1] .Root)
    rw [h₁, h₂,
      saveVal_named t₁ nm₁ none (some (String.append ("value") (Nat.repr c)))
        .nil [] strm [0, c + 1] .Root [],
      saveFields_in fl₁ none (BFields.nil.append (.cons nm₁ t₁ .nil)) [] strm
        [0, c + 1] .Root []]
    rfl

theorem saveMany_root_docs (fls : List BFields) :
    ∀ (c : Nat) (strm : List BFields),
    saveMany ⟨⟨[.doc none .nil none]⟩, strm, none, [c], [.Root]⟩ (fls.map BVal.doc)
    = ⟨⟨[.doc none .nil none]⟩, strm ++ fls, none, [c + fls.length], [.Root]⟩ := by
  induction fls with
  | nil => intro c strm; simp [saveMany]
  | cons df fls ih =>
    intro c strm
    have h₁ : saveMany ⟨⟨[.doc none .nil none]⟩, strm, none, [c], [.Root]⟩
        ((df :: fls).map BVal.doc)
      = saveMany (saveTree ⟨⟨[.doc none .nil none]⟩, strm, none, [c], [.Root]⟩
          (.doc df)) (fls.map BVal.doc) := rfl
    rw [h₁, saveTree_root df c strm none, ih (c + 1) (strm ++ [df])]
    simp
    omega

theorem encodeMany_root_docs (fls : List BFields) :
    encodeMany (fls.map BVal.doc) = fls := by
  show (saveMany ⟨⟨[.doc none .nil none]⟩, [], none, [0], [.Root]⟩
      (fls.map BVal.doc)).itsWriteStream = fls
  rw [saveMany_root_docs fls 0 []]
  simp

/-! ## Decoding: named and positional loads restore the archive state -/

theorem BElems.drop_zero (es : BElems) : es.drop 0 = es := by
  match es with
  | .nil => rfl
  | .cons v fs => rfl

mutual

theorem loadVal_emb (t : BVal) (s : Shape) (nm : String) (rv : List BFields)
    (cv : Nat) (df : BFields) (ds : List BFields) (as₁ : List BElems)
    (is₁ : List Nat) (ns : List NodeState)
    (hs : hasShape t s = true) (hg : goodKeys t = true)
    (hl : df.lookup nm = some t) :
    loadTree ⟨some nm, rv, cv, df :: ds, as₁, is₁, .InEmbeddedObject :: ns⟩ s
    = .ok (t, ⟨none, rv, cv, df :: ds, as₁, is₁, .InEmbeddedObject :: ns⟩) := by
  match t, s with
  | .scalar sc, .scalar k =>
    simp [hasShape] at hs
    simp [loadTree, BSONInputArchive.loadValue, BSONInputArchive.search, hl, hs]
  | .scalar sc, .obj sf => simp [hasShape] at hs
  | .scalar sc, .arr s₁ => simp [hasShape] at hs
  | .doc fl, .scalar k => simp [hasShape] at hs
  | .doc fl, .obj sf =>
    simp only [hasShape] at hs
    simp only [goodKeys, Bool.and_eq_true] at hg
    have hsn : BSONInputArchive.startNode
        ⟨some nm, rv, cv, df :: ds, as₁, is₁, .InEmbeddedObject :: ns⟩
      = .ok ⟨none, rv, cv, fl :: df :: ds, as₁, is₁,
          .InEmbeddedObject :: .InEmbeddedObject :: ns⟩ := by
      simp [BSONInputArchive.startNode, BSONInputArchive.search, hl]
    simp only [loadTree]
    simp only [hsn]
    simp only [loadFields_emb fl sf rv cv fl (df :: ds) as₁ is₁
      (.InEmbeddedObject :: ns) hs hg.2 (LookupAll.self fl hg.1)]
    rfl
  | .doc fl, .arr s₁ => simp [hasShape] at hs
  | .arr el, .scalar k => simp [hasShape] at hs
  | .arr el, .obj sf => simp [hasShape] at hs
  | .arr el, .arr s₁ =>
    simp only [hasShape] at hs
    simp only [goodKeys] at hg
    have hsn : BSONInputArchive.startNode
        ⟨some nm, rv, cv, df :: ds, as₁, is₁, .InEmbeddedObject :: ns⟩
      = .ok ⟨none, rv, cv, df :: ds, el :: as₁, 0 :: is₁,
          .InEmbeddedArray :: .InEmbeddedObject :: ns⟩ := by
      simp [BSONInputArchive.startNode, BSONInputArchive.search, hl]
    simp only [loadTree]
    simp only [hsn]
    have hsz : BSONInputArchive.loadSize
        ⟨none, rv, cv, df :: ds, el :: as₁, 0 :: is₁,
          .InEmbeddedArray :: .InEmbeddedObject :: ns⟩
      = .ok (el.length, ⟨none, rv, cv, df :: ds, el :: as₁, 0 :: is₁,
          .InEmbeddedArray :: .InEmbeddedObject :: ns⟩) := rfl
    simp only [hsz]
    simp only [loadElemsAux_emb el s₁ el 0 rv cv (df :: ds) as₁ is₁
      (.InEmbeddedObject :: ns) hs hg (BElems.drop_zero el)]
    rfl

theorem loadVal_arr (t : BVal) (s : Shape) (rv : List BFields) (cv : Nat)
    (ds : List BFields) (aes : BElems) (as₁ : List BElems) (i : Nat)
    (is₁ : List Nat) (ns : List NodeState)
    (hs : hasShape t s = true) (hg : goodKeys t = true)
    (hget : aes.get? i = some t) :
    loadTree ⟨none, rv, cv, ds, aes :: as₁, i :: is₁, .InEmbeddedArray :: ns⟩ s
    = .ok (t, ⟨none, rv, cv, ds, aes :: as₁, (i + 1) :: is₁,
        .InEmbeddedArray :: ns⟩) := by
  match t, s with
  | .scalar sc, .scalar k =>
    simp [hasShape] at hs
    simp [loadTree, BSONInputArchive.loadValue, BSONInputArchive.search, hget, hs]
  | .scalar sc, .obj sf => simp [hasShape] at hs
  | .scalar sc, .arr s₁ => simp [hasShape] at hs
  | .doc fl, .scalar k => simp [hasShape] at hs
  | .doc fl, .obj sf =>
    simp only [hasShape] at hs
    simp only [goodKeys, Bool.and_eq_true] at hg
    have hsn : BSONInputArchive.startNode
        ⟨none, rv, cv, ds, aes :: as₁, i :: is₁, .InEmbeddedArray :: ns⟩
      = .ok ⟨none, rv, cv, fl :: ds, aes :: as₁, (i + 1) :: is₁,
          .InEmbeddedObject :: .InEmbeddedArray :: ns⟩ := by
      simp [BSONInputArchive.startNode, BSONInputArchive.search, hget]
    simp only [loadTree]
    simp only [hsn]
    simp only [loadFields_emb fl sf rv cv fl ds (aes :: as₁) ((i + 1) :: is₁)
      (.InEmbeddedArray :: ns) hs hg.2 (LookupAll.self fl hg.1)]
    rfl
  | .doc fl, .arr s₁ => simp [hasShape] at hs
  | .arr el, .scalar k => simp [hasShape] at hs
  | .arr el, .obj sf => simp [hasShape] at hs
  | .arr el, .arr s₁ =>
    simp only [hasShape] at hs
    simp only [goodKeys] at hg
    have hsn : BSONInputArchive.startNode
        ⟨none, rv, cv, ds, aes :: as₁, i :: is₁, .InEmbeddedArray :: ns⟩
      = .ok ⟨none, rv, cv, ds, el :: aes :: as₁, 0 :: (i + 1) :: is₁,
          .InEmbeddedArray :: .InEmbeddedArray :: ns⟩ := by
      simp [BSONInputArchive.startNode, BSONInputArchive.search, hget]
    simp only [loadTree]
    simp only [hsn]
    have hsz : BSONInputArchive.loadSize
        ⟨none, rv, cv, ds, el :: aes :: as₁, 0 :: (i + 1) :: is₁,
          .InEmbeddedArray :: .InEmbeddedArray :: ns⟩
      = .ok (el.length, ⟨none, rv, cv, ds, el :: aes :: as₁, 0 :: (i + 1) :: is₁,
          .InEmbeddedArray :: .InEmbeddedArray :: ns⟩) := rfl
    simp only [hsz]
    simp only [loadElemsAux_emb el s₁ el 0 rv cv ds (aes :: as₁) ((i + 1) :: is₁)
      (.InEmbeddedArray :: ns) hs hg (BElems.drop_zero el)]
    rfl

theorem loadFields_emb (fl : BFields) (sf : ShapeFields) (rv : List BFields)
    (cv : Nat) (df : BFields) (ds : List BFields) (as₁ : List BElems)
    (is₁ : List Nat) (ns : List NodeState)
    (hs : fieldsShape fl sf = true) (hg : goodKeysF fl = true)
    (hla : LookupAll df fl) :
    loadFields ⟨none, rv, cv, df :: ds, as₁, is₁, .InEmbeddedObject :: ns⟩ sf
    = .ok (fl, ⟨none, rv, cv, df :: ds, as₁, is₁, .InEmbeddedObject :: ns⟩) := by
  match fl, sf with
  | .nil, .nil => rfl
  | .nil, .cons nm₂ s₁ sf₁ => simp [fieldsShape] at hs
  | .cons nm v fl₁, .nil => simp [fieldsShape] at hs
  | .cons nm v fl₁, .cons nm₂ s₁ sf₁ =>
    simp only [fieldsShape, Bool.and_eq_true, decide_eq_true_eq] at hs
    obtain ⟨⟨hnm, hsv⟩, hsf⟩ := hs
    simp only [goodKeysF, Bool.and_eq_true] at hg
    obtain ⟨hlv, hlf⟩ := hla
    subst hnm
    simp only [loadFields, BSONInputArchive.setNextName]
    simp only [loadVal_emb v s₁ nm rv cv df ds as₁ is₁ ns hsv hg.1 hlv]
    simp only [loadFields_emb fl₁ sf₁ rv cv df ds as₁ is₁ ns hsf hg.2 hlf]

theorem loadElemsAux_emb (rem : BElems) (s : Shape) (aes : BElems) (i : Nat)
    (rv : List BFields) (cv : Nat) (ds : List BFields) (as₁ : List BElems)
    (is₁ : List Nat) (ns : List NodeState)
    (hs : elemsShape rem s = true) (hg : goodKeysE rem = true)
    (hd : aes.drop i = rem) :
    loadElemsAux (fun a => loadTree a s)
      ⟨none, rv, cv, ds, aes :: as₁, i :: is₁, .InEmbeddedArray :: ns⟩ rem.length
    = .ok (rem, ⟨none, rv, cv, ds, aes :: as₁, (i + rem.length) :: is₁,
        .InEmbeddedArray :: ns⟩) := by
  match rem with
  | .nil => rfl
  | .cons v rem₁ =>
    simp only [elemsShape, Bool.and_eq_true] at hs
    simp only [goodKeysE, Bool.and_eq_true] at hg
    obtain ⟨hget, hd₂⟩ := BElems.drop_cons aes i v rem₁ hd
    have hlen : BElems.length (.cons v rem₁) = rem₁.length + 1 := rfl
    rw [hlen]
    simp only [loadElemsAux]
    simp only [loadVal_arr v s rv cv ds aes as₁ i is₁ ns hs.1 hg.1 hget]
    simp only [loadElemsAux_emb rem₁ s aes (i + 1) rv cv ds as₁ is₁ ns hs.2 hg.2 hd₂]
    have harith : (i + 1) + rem₁.length = i + (rem₁.length + 1) := by omega
    rw [harith]

end

/-! ## Decoding at root level -/

theorem loadVal_rootField (t : BVal) (s : Shape) (nm : String) (rv : List BFields)
    (cv : Nat) (ds : List BFields) (as₁ : List BElems) (is₁ : List Nat)
    (ns : List NodeState)
    (hs : hasShape t s = true) (hg : goodKeys t = true)
    (hl : (viewAt rv cv).lookup nm = some t) :
    loadTree ⟨some nm, rv, cv, ds, as₁, is₁, .InObject :: ns⟩ s
    = .ok (t, ⟨none, rv, cv, ds, as₁, is₁, .InObject :: ns⟩) := by
  match t, s with
  | .scalar sc, .scalar k =>
    simp [hasShape] at hs
    simp [loadTree, BSONInputArchive.loadValue, BSONInputArchive.search, hl, hs]
  | .scalar sc, .obj sf => simp [hasShape] at hs
  | .scalar sc, .arr s₁ => simp [hasShape] at hs
  | .doc fl, .scalar k => simp [hasShape] at hs
  | .doc fl, .obj sf =>
    simp only [hasShape] at hs
    simp only [goodKeys, Bool.and_eq_true] at hg
    have hsn : BSONInputArchive.startNode
        ⟨some nm, rv, cv, ds, as₁, is₁, .InObject :: ns⟩
      = .ok ⟨none, rv, cv, fl :: ds, as₁, is₁,
          .InEmbeddedObject :: .InObject :: ns⟩ := by
      simp [BSONInputArchive.startNode, BSONInputArchive.search, hl]
    simp only [loadTree]
    simp only [hsn]
    simp only [loadFields_emb fl sf rv cv fl ds as₁ is₁
      (.InObject :: ns) hs hg.2 (LookupAll.self fl hg.1)]
    rfl
  | .doc fl, .arr s₁ => simp [hasShape] at hs
  | .arr el, .scalar k => simp [hasShape] at hs
  | .arr el, .obj sf => simp [hasShape] at hs
  | .arr el, .arr s₁ =>
    simp only [hasShape] at hs
    simp only [goodKeys] at hg
    have hsn : BSONInputArchive.startNode
        ⟨some nm, rv, cv, ds, as₁, is₁, .InObject :: ns⟩
      = .ok ⟨none, rv, cv, ds, el :: as₁, 0 :: is₁,
          .InEmbeddedArray :: .InObject :: ns⟩ := by
      simp [BSONInputArchive.startNode, BSONInputArchive.search, hl]
    simp only [loadTree]
    simp only [hsn]
    have hsz : BSONInputArchive.loadSize
        ⟨none, rv, cv, ds, el :: as₁, 0 :: is₁,
          .InEmbeddedArray :: .InObject :: ns⟩
      = .ok (el.length, ⟨none, rv, cv, ds, el :: as₁, 0 :: is₁,
          .InEmbeddedArray :: .InObject :: ns⟩) := rfl
    simp only [hsz]
    simp only [loadElemsAux_emb el s₁ el 0 rv cv ds as₁ is₁
      (.InObject :: ns) hs hg (BElems.drop_zero el)]
    rfl

theorem loadFields_root (fl : BFields) (sf : ShapeFields) (rv : List BFields)
    (cv : Nat) (ds : List BFields) (as₁ : List BElems) (is₁ : List Nat)
    (ns : List NodeState)
    (hs : fieldsShape fl sf = true) (hg : goodKeysF fl = true)
    (hla : LookupAll (viewAt rv cv) fl) :
    loadFields ⟨none, rv, cv, ds, as₁, is₁, .InObject :: ns⟩ sf
    = .ok (fl, ⟨none, rv, cv, ds, as₁, is₁, .InObject :: ns⟩) := by
  match fl, sf with
  | .nil, .nil => rfl
  | .nil, .cons nm₂ s₁ sf₁ => simp [fieldsShape] at hs
  | .cons nm v fl₁, .nil => simp [fieldsShape] at hs
  | .cons nm v fl₁, .cons nm₂ s₁ sf₁ =>
    simp only [fieldsShape, Bool.and_eq_true, decide_eq_true_eq] at hs
    obtain ⟨⟨hnm, hsv⟩, hsf⟩ := hs
    simp only [goodKeysF, Bool.and_eq_true] at hg
    obtain ⟨hlv, hlf⟩ := hla
    subst hnm
    simp only [loadFields, BSONInputArchive.setNextName]
    simp only [loadVal_rootField v s₁ nm rv cv ds as₁ is₁ ns hsv hg.1 hlv]
    simp only [loadFields_root fl₁ sf₁ rv cv ds as₁ is₁ ns hsf hg.2 hlf]

theorem loadTree_rootDoc (df : BFields) (sf : ShapeFields) (rv : List BFields)
    (cv : Nat) (hview : viewAt rv cv = df)
    (hs : fieldsShape df sf = true) (hk : distinctKeys df.keys = true)
    (hg : goodKeysF df = true) :
    loadTree ⟨none, rv, cv, [], [], [], [.Root]⟩ (.obj sf)
    = .ok (.doc df, ⟨none, rv, cv + 1, [], [], [], [.Root]⟩) := by
  have hsn : BSONInputArchive.startNode ⟨none, rv, cv, [], [], [], [.Root]⟩
    = .ok ⟨none, rv, cv, [], [], [], [.InObject, .Root]⟩ := rfl
  simp only [loadTree]
  simp only [hsn]
  have hla : LookupAll (viewAt rv cv) df := by
    rw [hview]; exact LookupAll.self df hk
  simp only [loadFields_root df sf rv cv [] [] [] [.Root] hs hg hla]
  rfl

theorem loadMany_roots (fls : List BFields) (sfs : List Shape) :
    ∀ (rv : List BFields) (cv : Nat) (suffix : List BFields),
    RootsOK fls sfs → rv.drop cv = fls ++ suffix →
    loadMany ⟨none, rv, cv, [], [], [], [.Root]⟩ sfs
    = .ok (fls.map BVal.doc, ⟨none, rv, cv + fls.length, [], [], [], [.Root]⟩) := by
  match fls, sfs with
  | [], [] => intro rv cv suffix _ _; rfl
  | [], s :: ss => intro rv cv suffix hok _; simp [RootsOK] at hok
  | df :: fls₁, [] => intro rv cv suffix hok _; simp [RootsOK] at hok
  | df :: fls₁, .scalar k :: ss => intro rv cv suffix hok _; simp [RootsOK] at hok
  | df :: fls₁, .arr s₁ :: ss => intro rv cv suffix hok _; simp [RootsOK] at hok
  | df :: fls₁, .obj sf :: ss =>
    intro rv cv suffix hok hdrop
    obtain ⟨⟨h1, h2, h3⟩, hrest⟩ := hok
    have hview : viewAt rv cv = df := viewAt_of_drop rv cv df _ hdrop
    have hdrop₂ : rv.drop (cv + 1) = fls₁ ++ suffix := by
      have h := congrArg (List.drop 1) hdrop
      rw [List.drop_drop] at h
      simpa [Nat.add_comm] using h
    simp only [loadMany]
    simp only [loadTree_rootDoc df sf rv cv hview h1 h2 h3]
    simp only [loadMany_roots fls₁ ss rv (cv + 1) suffix hrest hdrop₂]
    have harith : (cv + 1) + fls₁.length = cv + (fls₁.length + 1) := by omega
    simp [harith]

/-! ## The root-view cursor moves only in finishNode -/

theorem search_curView (ar : BSONInputArchive) :
    (ar.search).2.curBsonView = ar.curBsonView := by
  unfold BSONInputArchive.search
  cases hn : ar.itsNextName <;> cases hs : ar.itsNodeStack.headD .Root <;>
    simp only [hn, hs] <;> (try split) <;> rfl

theorem startNode_curView (ar a₁ : BSONInputArchive)
    (h : ar.startNode = .ok a₁) : a₁.curBsonView = ar.curBsonView := by
  have hsp := search_curView ar
  unfold BSONInputArchive.startNode at h
  split at h
  all_goals try (injection h with h₃; rw [← h₃])
  all_goals (
    rcases hq : ar.search with ⟨r, a₂⟩
    have hsp₂ : a₂.curBsonView = ar.curBsonView := by rw [hq] at hsp; exact hsp
    rw [hq] at h
    cases r with
    | error e => simp at h
    | ok elem =>
      rcases elem with _ | v
      · simp at h
      · cases v with
        | scalar sc => simp at h
        | doc df =>
          injection h with h₃
          rw [← h₃]
          exact hsp₂
        | arr el =>
          injection h with h₃
          rw [← h₃]
          exact hsp₂)

theorem loadValue_curView (ar a₁ : BSONInputArchive) (k : ScalarKind)
    (sc : BsonScalar) (h : ar.loadValue k = .ok (sc, a₁)) :
    a₁.curBsonView = ar.curBsonView := by
  have hsp := search_curView ar
  unfold BSONInputArchive.loadValue at h
  rcases hq : ar.search with ⟨r, a₂⟩
  have hsp₂ : a₂.curBsonView = ar.curBsonView := by rw [hq] at hsp; exact hsp
  rw [hq] at h
  cases r with
  | error e => simp at h
  | ok elem =>
    rcases elem with _ | v
    · simp at h
    · cases v with
      | scalar sc₁ =>
        by_cases hk : kindOf sc₁ = k
        · simp only [hk, if_pos] at h
          injection h with h₃
          injection h₃ with h₄ h₅
          rw [← h₅]
          exact hsp₂
        · simp [hk] at h
      | doc df => simp at h
      | arr el => simp at h

theorem loadSize_curView (ar a₁ : BSONInputArchive) (n : Nat)
    (h : ar.loadSize = .ok (n, a₁)) : a₁.curBsonView = ar.curBsonView := by
  unfold BSONInputArchive.loadSize at h
  split at h
  · injection h with h₃
    injection h₃ with h₄ h₅
    rw [← h₅]
  · simp at h

theorem finishNode_curView (ar : BSONInputArchive) :
    (ar.finishNode).curBsonView =
      if ar.itsNodeStack.tail.headD .Root = .Root
      then ar.curBsonView + 1 else ar.curBsonView := by
  match h₁ : ar.itsNodeStack with
  | [] => simp [BSONInputArchive.finishNode, h₁]
  | [top] => cases top <;> simp [BSONInputArchive.finishNode, h₁]
  | top :: r :: rs => cases top <;> cases r <;> simp [BSONInputArchive.finishNode, h₁]

/-! ## C1 (amended) and C8: the round trip -/

/-- C1, amended: for every tree whose root is an object and in which every
document has pairwise-distinct field names, serializing it with
`BSONOutputArchive` and then deserializing the produced documents with
`BSONInputArchive` under the same typed traversal yields a tree equal to
the original, field-for-field — name-addressed fields by key lookup and
positionally-addressed array elements in order — over all supported
scalars (booleans, 32- and 64-bit integers, doubles, UTF-8 strings,
date-times). -/
theorem roundtrip_object_tree (df : BFields) (sf : ShapeFields)
    (hs : hasShape (.doc df) (.obj sf) = true)
    (hg : goodKeys (.doc df) = true) :
    loadTree (BSONInputArchive.start (encodeMany [.doc df])) (.obj sf)
    = .ok (.doc df, ⟨none, [df], 1, [], [], [], [.Root]⟩) := by
  have henc : encodeMany [.doc df] = [df] := by
    have h := encodeMany_root_docs [df]
    simpa using h
  rw [henc]
  simp only [hasShape] at hs
  simp only [goodKeys, Bool.and_eq_true] at hg
  exact loadTree_rootDoc df sf [df] 0 rfl hs hg.1 hg.2

/-- Witness for C1 on a tree exercising every construct: scalar fields, a
scalar array, a nested object, an empty object and an empty array. -/
theorem roundtrip_object_tree_witness :
    hasShape (.doc sampleTree) (.obj sampleShape) = true
    ∧ goodKeys (.doc sampleTree) = true
    ∧ loadTree (BSONInputArchive.start (encodeMany [.doc sampleTree]))
        (.obj sampleShape)
      = .ok (.doc sampleTree, ⟨none, [sampleTree], 1, [], [], [], [.Root]⟩) :=
  ⟨rfl, rfl, roundtrip_object_tree sampleTree sampleShape rfl rfl⟩

/-- C8 fails as stated: one top-level object with a duplicated field name
`a` (values 1 and 2) is encoded and decoded, and the decoder yields a
different tree — the first-match key lookup resolves the second request
for `a` to the first field again, so the tree comes back with both fields
holding 1. -/
theorem multi_root_duplicate_key_fails :
    loadMany (BSONInputArchive.start (encodeMany [.doc dupKeyDoc])) [dupKeyShape]
      = .ok ([.doc dupKeyDecoded], ⟨none, [dupKeyDoc], 1, [], [], [], [.Root]⟩)
    ∧ BVal.doc dupKeyDecoded ≠ BVal.doc dupKeyDoc := by
  refine ⟨rfl, ?_⟩
  intro h
  simp [dupKeyDoc, dupKeyDecoded] at h

/-- C8, amended: encoding N independent top-level objects — each of whose
documents has pairwise-distinct field names — into the same sink and then
decoding yields the N trees in the same order; and the decoder's cursor
over root document views is preserved by `search`, `startNode`,
`loadValue` and `loadSize`, advancing only inside `finishNode`, exactly
when popping the node-state stack leaves `Root` on top. -/
theorem multi_root_roundtrip (fls : List BFields) (sfs : List Shape)
    (hok : RootsOK fls sfs) :
    loadMany (BSONInputArchive.start (encodeMany (fls.map BVal.doc))) sfs
      = .ok (fls.map BVal.doc, ⟨none, fls, fls.length, [], [], [], [.Root]⟩)
    ∧ (∀ ar : BSONInputArchive, (ar.search).2.curBsonView = ar.curBsonView)
    ∧ (∀ ar a₁ : BSONInputArchive, ar.startNode = .ok a₁ →
        a₁.curBsonView = ar.curBsonView)
    ∧ (∀ (ar a₁ : BSONInputArchive) (k : ScalarKind) (sc : BsonScalar),
        ar.loadValue k = .ok (sc, a₁) → a₁.curBsonView = ar.curBsonView)
    ∧ (∀ (ar a₁ : BSONInputArchive) (n : Nat),
        ar.loadSize = .ok (n, a₁) → a₁.curBsonView = ar.curBsonView)
    ∧ (∀ ar : BSONInputArchive, (ar.finishNode).curBsonView =
        if ar.itsNodeStack.tail.headD .Root = .Root
        then ar.curBsonView + 1 else ar.curBsonView) := by
  refine ⟨?_, search_curView, startNode_curView, ?_, ?_, finishNode_curView⟩
  · rw [encodeMany_root_docs fls]
    have h := loadMany_roots fls sfs fls 0 [] hok (by simp)
    simpa using h
  · intro ar a₁ k sc h; exact loadValue_curView ar a₁ k sc h
  · intro ar a₁ n h; exact loadSize_curView ar a₁ n h

/-- Witness for C8: two distinct root objects encoded into one sink decode
back in the same order. -/
theorem multi_root_roundtrip_witness :
    loadMany (BSONInputArchive.start
        (encodeMany ([sampleTree, scalarFieldDoc].map BVal.doc)))
      [.obj sampleShape, .obj (.cons ("a") (.scalar .int32) .nil)]
    = .ok ([.doc sampleTree, .doc scalarFieldDoc],
        ⟨none, [sampleTree, scalarFieldDoc], 2, [], [], [], [.Root]⟩) :=
  (multi_root_roundtrip [sampleTree, scalarFieldDoc]
    [.obj sampleShape, .obj (.cons ("a") (.scalar .int32) .nil)]
    ⟨⟨rfl, rfl, rfl⟩, ⟨rfl, rfl, rfl⟩, trivial⟩).1

end CerealBson
